import Mathlib

/-!
Verification of the control-flow lowering core of `src/compiler/generator.ts`:
the opcode recorder, the block-scope tracker and the switch-body assembler
behind `createCodeGenerator`.  The mutable closure state of the generator is
embedded as the structure `GenState`; every API function of the generator is a
state transformer translated clause by clause from the source.  The generator
finalization pass `buildFunctionBody` is embedded as an executable fold over
the recorded operation log.  JavaScript sparse arrays are modelled with
`List (Option _)`, `undefined` results with `Option`, and mutable block
objects (which are aliased between the live stack and the block event log)
through an explicit heap `blockObjs` addressed by allocation index.
Source locations (`relatedLocation`, `operationLocations`) and the symbol
tables (parameters/locals/functions) are omitted: no verified property
mentions them and no embedded function reads them.
-/

namespace TSGen

/-- The opcodes of the recorder (enum `OpCode` consumed by `emit`). -/
inductive OpCode
| Statement
| Assign
| Break
| BrTrue
| BrFalse
| Yield
| Return
| Throw
| Endfinally
deriving DecidableEq, Repr

/-- A JavaScript value that can be handed to the recorder: a raw string (which
`emit` wraps into a generated node), a generated node made from a template
text, an opaque caller-supplied AST node (abstracted by an id), a label
number, the generated node `variable = __state.error;` produced inside
`beginCatchBlock`, or `null`/`undefined`. -/
inductive Val
| str (s : String)
| gen (text : String)
| node (id : Nat)
| lbl (l : Int)
| errorAssign (v : Nat)
| nullish
deriving DecidableEq, Repr

/-- JavaScript truthiness for the values above. -/
def truthy : Val → Bool
| .str s => s.length != 0
| .gen _ => true
| .node _ => true
| .lbl l => l != 0
| .errorAssign _ => true
| .nullish => false

/-- `enum BlockKind`. -/
inductive BlockKind
| Exception
| ScriptBreak
| Break
| ScriptContinue
| Continue
deriving DecidableEq, Repr

/-- `enum ExceptionBlockState`. -/
inductive ExceptionBlockState
| Try
| Catch
| Finally
| Done
deriving DecidableEq, Repr

/-- The numeric value of an `ExceptionBlockState`; the source compares states
with the numeric `<` of the enum. -/
def ExceptionBlockState.val : ExceptionBlockState → Nat
| .Try => 0
| .Catch => 1
| .Finally => 2
| .Done => 3

/-- A block scope record.  The source uses three interface layers
(`ExceptionBlock`, `BreakBlock`, `ContinueBlock`); here a single structure
holds every field, with `Option`/default values standing for the fields a
given block kind leaves `undefined`.  Note both `labelText` and `labelSymbol`
exist: `beginScriptBreakBlock` writes the latter while `findBreakTarget`
reads the former, exactly as in the source. -/
structure BlockScope where
  kind : BlockKind
  state : ExceptionBlockState := .Try
  startLabel : Int := 0
  catchVariable : Option Nat := none
  catchLabel : Option Int := none
  finallyLabel : Option Int := none
  endLabel : Int := 0
  breakLabel : Int := 0
  continueLabel : Int := 0
  labelText : Option String := none
  labelSymbol : Option String := none
deriving DecidableEq, Repr

/-- `enum BlockAction`. -/
inductive BlockAction
| Open
| Close
deriving DecidableEq, Repr

/-- One entry of the block event log: the parallel arrays `blockActions`,
`blockOffsets` and `blocks` of the source, with the shared mutable block
object replaced by its id in the heap `GenState.blockObjs`. -/
structure BlockEvent where
  action : BlockAction
  offset : Nat
  blockId : Nat
deriving DecidableEq, Repr

/-- One recorded operation: the parallel arrays `operations` and
`operationArguments` of the source. -/
structure Operation where
  code : OpCode
  args : List Val
deriving DecidableEq, Repr

/-- The mutable closure state of `createCodeGenerator`.  `blockStack` keeps
the top of the live stack at the head.  `labels` is the sparse label array
(`labels[label]` is the bound operation index, `-1` when defined but
unbound, `none` for a hole).  `callerLabels` is a ghost field recording
which label ids were handed to the driving visitor by `defineLabel`; it is
used only to express the calling protocol of trace replays. -/
structure GenState where
  blockObjs : List BlockScope := []
  blockStack : List Nat := []
  blockEvents : List BlockEvent := []
  hasProtectedRegions : Bool := false
  nextLabelId : Nat := 1
  labels : List (Option Int) := []
  callerLabels : List Int := []
  operations : List Operation := []
deriving DecidableEq, Repr

/-- JavaScript sparse-array assignment `xs[i] = v`: in-range indices are
overwritten, writing past the end fills the gap with holes. -/
def sparseSet {α : Type} (xs : List (Option α)) (i : Nat) (v : α) : List (Option α) :=
  if i < xs.length then xs.set i (some v)
  else xs ++ List.replicate (i - xs.length) none ++ [some v]

/-- `function defineLabel()`: allocate a fresh label id and enter it into
`labels` as unbound (`-1`). -/
def defineLabel (g : GenState) : Int × GenState :=
  let label : Int := g.nextLabelId
  (label,
    { g with nextLabelId := g.nextLabelId + 1,
             labels := sparseSet g.labels label.toNat (-1) })

/-- `function markLabel(label)`: bind a label to the current operation count.
A negative argument would become a plain object property in JavaScript,
invisible to the index scan of `ensureLabels`, so it is modelled as a no-op
on the array. -/
def markLabel (l : Int) (g : GenState) : GenState :=
  if 0 ≤ l then
    { g with labels := sparseSet g.labels l.toNat (g.operations.length : Int) }
  else g

/-- `function beginBlock(block)`: allocate the block object, record an Open
event at the current operation offset and push the block on the live stack. -/
def beginBlock (b : BlockScope) (g : GenState) : GenState :=
  let id := g.blockObjs.length
  { g with blockObjs := g.blockObjs ++ [b],
           blockEvents := g.blockEvents ++ [⟨.Open, g.operations.length, id⟩],
           blockStack := id :: g.blockStack }

/-- `function emit(code, ...args)`: wrap a leading or second string argument
into a generated node, silently drop a `Statement` with a falsy payload, and
otherwise append the operation triple. -/
def emit (g : GenState) (code : OpCode) (args : List Val) : GenState :=
  let args : List Val :=
    match args with
    | Val.str s :: _ => [Val.gen s]
    | a0 :: Val.str s :: _ => [a0, Val.gen s]
    | _ => args
  if code = OpCode.Statement ∧ ((args.head?.map truthy).getD false) = false then g
  else { g with operations := g.operations ++ [⟨code, args⟩] }

/-- `function beginExceptionBlock()`: allocate and mark the start label,
allocate the end label, push an Exception block in state Try, raise
`hasProtectedRegions`, and hand the end label back to the caller. -/
def beginExceptionBlock (g : GenState) : Int × GenState :=
  let (startLabel, g) := defineLabel g
  let (endLabel, g) := defineLabel g
  let g := markLabel startLabel g
  let g := beginBlock { kind := .Exception, state := .Try,
                        startLabel := startLabel, endLabel := endLabel } g
  (endLabel, { g with hasProtectedRegions := true })

/-- `function beginCatchBlock(variable)`.  The two `Debug.assert` guards of
the source (top of stack is an Exception block whose state precedes Catch)
are modelled by leaving the state untouched when they would fail. -/
def beginCatchBlock (catchVar : Nat) (g : GenState) : GenState :=
  match g.blockStack with
  | [] => g
  | id :: _ =>
    match g.blockObjs.get? id with
    | none => g
    | some b =>
      if b.kind = BlockKind.Exception ∧ b.state.val < ExceptionBlockState.Catch.val then
        let g := emit g .Break [Val.lbl b.endLabel]
        let (catchLabel, g) := defineLabel g
        let g := markLabel catchLabel g
        let b2 := { b with state := ExceptionBlockState.Catch,
                           catchVariable := some catchVar,
                           catchLabel := some catchLabel }
        let g := { g with blockObjs := g.blockObjs.set id b2 }
        emit g .Statement [Val.errorAssign catchVar]
      else g

/-- `function beginFinallyBlock()`, with the `Debug.assert` guards modelled
as for `beginCatchBlock`. -/
def beginFinallyBlock (g : GenState) : GenState :=
  match g.blockStack with
  | [] => g
  | id :: _ =>
    match g.blockObjs.get? id with
    | none => g
    | some b =>
      if b.kind = BlockKind.Exception ∧ b.state.val < ExceptionBlockState.Finally.val then
        let g := emit g .Break [Val.lbl b.endLabel]
        let (finallyLabel, g) := defineLabel g
        let g := markLabel finallyLabel g
        let b2 := { b with state := ExceptionBlockState.Finally,
                           finallyLabel := some finallyLabel }
        { g with blockObjs := g.blockObjs.set id b2 }
      else g

/-- `function endExceptionBlock()`: pop the block (recording the Close event
first, as `endBlock` does), emit `Break endLabel` when the state is still
before Finally and `Endfinally` otherwise, mark the end label, and set the
block state to Done. -/
def endExceptionBlock (g : GenState) : GenState :=
  match g.blockStack with
  | [] => g
  | id :: rest =>
    match g.blockObjs.get? id with
    | none => g
    | some b =>
      if b.kind = BlockKind.Exception then
        let g := { g with blockStack := rest,
                          blockEvents := g.blockEvents ++ [⟨.Close, g.operations.length, id⟩] }
        let g :=
          if b.state.val < ExceptionBlockState.Finally.val then
            emit g .Break [Val.lbl b.endLabel]
          else
            emit g .Endfinally []
        let g := markLabel b.endLabel g
        let b2 := { b with state := ExceptionBlockState.Done }
        { g with blockObjs := g.blockObjs.set id b2 }
      else g

/-- `function beginScriptContinueBlock(labelText)`. -/
def beginScriptContinueBlock (labelText : String) (g : GenState) : GenState :=
  beginBlock { kind := .ScriptContinue, labelText := some labelText,
               breakLabel := -1, continueLabel := -1 } g

/-- `function endScriptContinueBlock()` (assert-guarded pop). -/
def endScriptContinueBlock (g : GenState) : GenState :=
  match g.blockStack with
  | [] => g
  | id :: rest =>
    match g.blockObjs.get? id with
    | none => g
    | some b =>
      if b.kind = BlockKind.ScriptContinue then
        { g with blockStack := rest,
                 blockEvents := g.blockEvents ++ [⟨.Close, g.operations.length, id⟩] }
      else g

/-- `function beginScriptBreakBlock(labelText)`.  Note the source stores the
text under the field name `labelSymbol`, not `labelText`. -/
def beginScriptBreakBlock (labelText : String) (g : GenState) : GenState :=
  beginBlock { kind := .ScriptBreak, labelSymbol := some labelText,
               breakLabel := -1 } g

/-- `function endScriptBreakBlock()` (assert-guarded pop). -/
def endScriptBreakBlock (g : GenState) : GenState :=
  match g.blockStack with
  | [] => g
  | id :: rest =>
    match g.blockObjs.get? id with
    | none => g
    | some b =>
      if b.kind = BlockKind.ScriptBreak then
        { g with blockStack := rest,
                 blockEvents := g.blockEvents ++ [⟨.Close, g.operations.length, id⟩] }
      else g

/-- `function beginContinueBlock(continueLabel, labelText)`: fresh break
label, push a Continue block, return the break label. -/
def beginContinueBlock (continueLabel : Int) (labelText : String) (g : GenState) : Int × GenState :=
  let (breakLabel, g) := defineLabel g
  (breakLabel,
    beginBlock { kind := .Continue, labelText := some labelText,
                 breakLabel := breakLabel, continueLabel := continueLabel } g)

/-- `function endContinueBlock()`: assert-guarded pop; if the stored break
label is positive, mark it at the current operation count. -/
def endContinueBlock (g : GenState) : GenState :=
  match g.blockStack with
  | [] => g
  | id :: rest =>
    match g.blockObjs.get? id with
    | none => g
    | some b =>
      if b.kind = BlockKind.Continue then
        let g := { g with blockStack := rest,
                          blockEvents := g.blockEvents ++ [⟨.Close, g.operations.length, id⟩] }
        if 0 < b.breakLabel then markLabel b.breakLabel g else g
      else g

/-- `function beginBreakBlock(labelText)`. -/
def beginBreakBlock (labelText : String) (g : GenState) : Int × GenState :=
  let (breakLabel, g) := defineLabel g
  (breakLabel,
    beginBlock { kind := .Break, labelText := some labelText,
                 breakLabel := breakLabel } g)

/-- `function endBreakBlock()`. -/
def endBreakBlock (g : GenState) : GenState :=
  match g.blockStack with
  | [] => g
  | id :: rest =>
    match g.blockObjs.get? id with
    | none => g
    | some b =>
      if b.kind = BlockKind.Break then
        let g := { g with blockStack := rest,
                          blockEvents := g.blockEvents ++ [⟨.Close, g.operations.length, id⟩] }
        if 0 < b.breakLabel then markLabel b.breakLabel g else g
      else g

/-- `function supportsBreak(block)`. -/
def supportsBreak (b : BlockScope) : Bool :=
  match b.kind with
  | .ScriptBreak => true
  | .ScriptContinue => true
  | .Break => true
  | .Continue => true
  | .Exception => false

/-- `function supportsContinue(block)`. -/
def supportsContinue (b : BlockScope) : Bool :=
  match b.kind with
  | .ScriptContinue => true
  | .Continue => true
  | _ => false

/-- The test `!labelText` of the source: the argument is falsy when it is
`undefined` or the empty string. -/
def labelArgFalsy : Option String → Bool
| none => true
| some s => s.length = 0

/-- Walk of `findBreakTarget` over the live stack (head = top of stack). -/
def findBreakTargetAux (objs : List BlockScope) (stack : List Nat) (labelText : Option String) : Int :=
  match stack with
  | [] => 0
  | id :: rest =>
    match objs.get? id with
    | none => findBreakTargetAux objs rest labelText
    | some b =>
      if supportsBreak b ∧ (labelArgFalsy labelText ∨ b.labelText = labelText) then
        b.breakLabel
      else findBreakTargetAux objs rest labelText

/-- `function findBreakTarget(labelText?)`: nearest enclosing block that
supports break and matches; `0` when the walk finds nothing. -/
def findBreakTarget (g : GenState) (labelText : Option String) : Int :=
  findBreakTargetAux g.blockObjs g.blockStack labelText

/-- Walk of `findContinueTarget`.  The source loop has no trailing `return`,
so the JavaScript function yields `undefined` when no block matches; the
result type is therefore `Option Int` with `none` for that fall-off, while
`findBreakTarget` really returns the number `0`. -/
def findContinueTargetAux (objs : List BlockScope) (stack : List Nat) (labelText : Option String) : Option Int :=
  match stack with
  | [] => none
  | id :: rest =>
    match objs.get? id with
    | none => findContinueTargetAux objs rest labelText
    | some b =>
      if supportsContinue b ∧ (labelArgFalsy labelText ∨ b.labelText = labelText) then
        some b.continueLabel
      else findContinueTargetAux objs rest labelText

/-- `function findContinueTarget(labelText?)`. -/
def findContinueTarget (g : GenState) (labelText : Option String) : Option Int :=
  findContinueTargetAux g.blockObjs g.blockStack labelText

/-- The state `createCodeGenerator` starts from: all logs empty, then
`markLabel(defineLabel())` marks the entry label `1` at operation index 0. -/
def initGen : GenState :=
  let g : GenState := {}
  let (l, g) := defineLabel g
  markLabel l g

/-- One statement of the assembled switch body.  Each constructor matches one
of the generated-node shapes the finalization pass can produce:
`user` is a payload handed through `writeStatement`, `inlineBreak` is
`return ["break", L];`, `yieldStmt` is `return ["yield", e?];`, `returnStmt`
is `return ["return", e?];`, `endfinally` is `return ["endfinally"];`,
`setLabel n` is the fall-through fix-up `__state.label = n;` (the number is
printed eagerly in the source), `trysInit` is `__state.trys = [];`, and
`trysPush` is `__state.trys.push([start, catch, finally, end])` where a
`none` slot stands for the falsy value the source leaves in a slot whose
label was never created. -/
inductive Stmt
| user (v : Option Val)
| assign (l r : Option Val)
| inlineBreak (label : Option Val)
| brTrue (label cond : Option Val)
| brFalse (label cond : Option Val)
| yieldStmt (e : Option Val)
| returnStmt (e : Option Val)
| throwStmt (e : Option Val)
| endfinally
| setLabel (n : Nat)
| trysInit
| trysPush (startLabel : Int) (catchLabel : Option Int) (finallyLabel : Option Int) (endLabel : Int)
deriving DecidableEq, Repr

/-- One `case N:` clause of the assembled switch body. -/
structure Clause where
  num : Nat
  stmts : List Stmt
deriving DecidableEq, Repr

/-- The running state of `buildFunctionBody`: the committed clauses in
creation order, the currently open clause (whose statement buffer is the
`statements` array the source keeps aliased from the pushed clause — writes
before the first case go to a buffer never attached to any clause and are
modelled as dropped), the cursor over the block event log, and the two
suppression flags. -/
structure AsmState where
  labelNumbers : List (Option Nat) := []
  clauses : List Clause := []
  cur : Option Clause := none
  blockIndex : Nat := 0
  instructionWasAbrupt : Bool := false
  instructionWasCompletion : Bool := false
deriving DecidableEq, Repr

/-- `clauses.length` as the source sees it: the open clause was already
pushed into the array. -/
def caseCount (a : AsmState) : Nat :=
  a.clauses.length + (match a.cur with | some _ => 1 | none => 0)

/-- `function writeStatement(node)`: push into the statement buffer of the
open clause (a push before the first case lands in a buffer that no clause
references and never reaches the output). -/
def writeStatement (s : Stmt) (a : AsmState) : AsmState :=
  match a.cur with
  | some c => { a with cur := some { c with stmts := c.stmts ++ [s] } }
  | none => a

/-- The label ids `l` with `labels[l] === operationIndex`, in index order:
the scan at the top of `ensureLabels`. -/
def boundLabels (g : GenState) (opIndex : Nat) : List Nat :=
  (List.range g.labels.length).filter
    (fun l => g.labels.get? l = some (some (opIndex : Int)))

/-- `function ensureLabels()`: when some label is bound at the current
operation index, resolve every such label to the next case number, append
the fall-through fix-up to the open clause when the previous instruction was
neither abrupt nor a completion (and this is not the very first case), and
open the new case, seeding it with `__state.trys = [];` when it is case 0 of
a function with protected regions. -/
def ensureLabels (g : GenState) (opIndex : Nat) (a : AsmState) : AsmState :=
  let bound := boundLabels g opIndex
  if bound.isEmpty then a
  else
    let n := caseCount a
    let a := { a with labelNumbers := bound.foldl (fun ln l => sparseSet ln l n) a.labelNumbers }
    let a :=
      if a.instructionWasAbrupt = false ∧ a.instructionWasCompletion = false ∧ 0 < opIndex then
        writeStatement (.setLabel n) a
      else a
    let committed := match a.cur with | some c => a.clauses ++ [c] | none => a.clauses
    let seed : List Stmt := if n = 0 ∧ g.hasProtectedRegions = true then [.trysInit] else []
    { a with clauses := committed, cur := some ⟨n, seed⟩,
             instructionWasAbrupt := false, instructionWasCompletion := false }

/-- The slot test `exception.catchLabel > 0 && createLabel(...)` of the
source: the slot is populated exactly when the stored label is positive. -/
def posSlot : Option Int → Option Int
| some c => if 0 < c then some c else none
| none => none

/-- Handling of one block event by the loop at the top of `writeOperation`:
advance the cursor; an Open event of an Exception block additionally writes
the `__state.trys.push([...])` registration. -/
def processEvent (g : GenState) (e : BlockEvent) (a : AsmState) : AsmState :=
  let a := { a with blockIndex := a.blockIndex + 1 }
  match g.blockObjs.get? e.blockId with
  | none => a
  | some b =>
    if e.action = BlockAction.Open ∧ b.kind = BlockKind.Exception then
      writeStatement (.trysPush b.startLabel (posSlot b.catchLabel) (posSlot b.finallyLabel) b.endLabel) a
    else a

/-- The `for (; blockIndex < blockActions.length && blockOffsets[blockIndex]
<= operationIndex; blockIndex++)` loop, run over the still-unprocessed
suffix of the event log. -/
def syncFrom (g : GenState) (opIndex : Nat) (a : AsmState) : List BlockEvent → AsmState
| [] => a
| e :: rest =>
  if e.offset ≤ opIndex then syncFrom g opIndex (processEvent g e a) rest else a

/-- The block-event synchronisation at the top of `writeOperation`. -/
def blockSync (g : GenState) (opIndex : Nat) (a : AsmState) : AsmState :=
  syncFrom g opIndex a (g.blockEvents.drop a.blockIndex)

/-- `createYield`/`createInlineReturn` keep their expression only when it is
truthy. -/
def truthyOpt (v : Option Val) : Option Val :=
  match v with
  | some x => if truthy x then some x else none
  | none => none

/-- The opcode switch at the bottom of `writeOperation`, including the flag
effects of `writeBreak`, `writeYield`, `writeReturn`, `writeThrow` and
`writeEndfinally`. -/
def dispatch (code : OpCode) (args : List Val) (a : AsmState) : AsmState :=
  match code with
  | .Statement => writeStatement (.user (args.get? 0)) a
  | .Assign => writeStatement (.assign (args.get? 0) (args.get? 1)) a
  | .Break => writeStatement (.inlineBreak (args.get? 0)) { a with instructionWasAbrupt := true }
  | .BrTrue => writeStatement (.brTrue (args.get? 0) (args.get? 1)) a
  | .BrFalse => writeStatement (.brFalse (args.get? 0) (args.get? 1)) a
  | .Yield => writeStatement (.yieldStmt (truthyOpt (args.get? 0))) { a with instructionWasAbrupt := true }
  | .Return => writeStatement (.returnStmt (truthyOpt (args.get? 0))) { a with instructionWasCompletion := true }
  | .Throw => writeStatement (.throwStmt (args.get? 0)) { a with instructionWasCompletion := true }
  | .Endfinally => writeStatement .endfinally { a with instructionWasAbrupt := true }

/-- `function writeOperation(code, args)`: block-event sync, the early
termination when the previous instruction was abrupt or a completion, then
the opcode dispatch (with the redundant flag reset of the source, a no-op on
the path that reaches it). -/
def writeOperation (g : GenState) (opIndex : Nat) (code : OpCode) (args : List Val) (a : AsmState) : AsmState :=
  let a := blockSync g opIndex a
  if a.instructionWasAbrupt = true ∨ a.instructionWasCompletion = true then a
  else
    let a := { a with instructionWasAbrupt := false, instructionWasCompletion := false }
    dispatch code args a

/-- The trailing `writeReturn()` of the finalization pass. -/
def writeFinalReturn (a : AsmState) : AsmState :=
  writeStatement (.returnStmt none) { a with instructionWasCompletion := true }

/-- One iteration of the main loop of `buildFunctionBody` at operation index
`i` (`ensureLabels(); writeOperation(code, args);`). -/
def stepAt (g : GenState) (a : AsmState) (i : Nat) : AsmState :=
  match g.operations.get? i with
  | some op => writeOperation g i op.code op.args (ensureLabels g i a)
  | none => a

/-- The assembler state after the first `i` iterations of the main loop. -/
def runTo (g : GenState) (i : Nat) : AsmState :=
  (List.range i).foldl (stepAt g) {}

/-- `function buildFunctionBody()` down to its final assembler state: the
main loop, the trailing `ensureLabels()` and, when no completion was
written, the synthetic `return ["return"];`. -/
def buildFull (g : GenState) : AsmState :=
  let a := runTo g g.operations.length
  let a := ensureLabels g g.operations.length a
  if a.instructionWasCompletion = true then a else writeFinalReturn a

/-- The clause list an assembler state denotes: the committed clauses plus
the still-open one. -/
def outClauses (a : AsmState) : List Clause :=
  a.clauses ++ (match a.cur with | some c => [c] | none => [])

/-- The clause list returned by `buildFunctionBody`. -/
def buildFunctionBody (g : GenState) : List Clause :=
  outClauses (buildFull g)

/-- One call of the generator API from the driving visitor, for replaying a
whole recording.  The constructors mirror the exported surface that mutates
the recorder state; `emitNode` is omitted because it is sugar over `emit`. -/
inductive TraceEvent
| defineLabelE
| markLabelE (l : Int)
| beginExceptionBlockE
| beginCatchBlockE (catchVar : Nat)
| beginFinallyBlockE
| endExceptionBlockE
| beginScriptContinueBlockE (t : String)
| endScriptContinueBlockE
| beginScriptBreakBlockE (t : String)
| endScriptBreakBlockE
| beginContinueBlockE (l : Int) (t : String)
| endContinueBlockE
| beginBreakBlockE (t : String)
| endBreakBlockE
| emitE (c : OpCode) (args : List Val)
deriving DecidableEq, Repr

/-- Apply one API call to the generator state.  `markLabel` is restricted to
labels the visitor received from `defineLabel` (the ghost `callerLabels`):
the generator's internal labels are marked only by the generator itself. -/
def execEvent (g : GenState) (ev : TraceEvent) : GenState :=
  match ev with
  | .defineLabelE =>
    let (l, g) := defineLabel g
    { g with callerLabels := g.callerLabels ++ [l] }
  | .markLabelE l => if l ∈ g.callerLabels then markLabel l g else g
  | .beginExceptionBlockE => (beginExceptionBlock g).2
  | .beginCatchBlockE v => beginCatchBlock v g
  | .beginFinallyBlockE => beginFinallyBlock g
  | .endExceptionBlockE => endExceptionBlock g
  | .beginScriptContinueBlockE t => beginScriptContinueBlock t g
  | .endScriptContinueBlockE => endScriptContinueBlock g
  | .beginScriptBreakBlockE t => beginScriptBreakBlock t g
  | .endScriptBreakBlockE => endScriptBreakBlock g
  | .beginContinueBlockE l t => (beginContinueBlock l t g).2
  | .endContinueBlockE => endContinueBlock g
  | .beginBreakBlockE t => (beginBreakBlock t g).2
  | .endBreakBlockE => endBreakBlock g
  | .emitE c args => emit g c args

/-- A recording: the generator state after replaying a list of API calls
from the freshly constructed generator. -/
def exec (tr : List TraceEvent) : GenState :=
  tr.foldl execEvent initGen

/-! Basic lemmas about the sparse-array model. -/

theorem sparseSet_get_self {α : Type} (xs : List (Option α)) (i : Nat) (v : α) :
    (sparseSet xs i v).get? i = some (some v) := by
  unfold sparseSet
  split
  case isTrue h =>
    rw [List.get?_eq_getElem?, List.getElem?_set_self h]
  case isFalse h =>
    have hlen : xs.length ≤ i := Nat.le_of_not_lt h
    have hlen2 : (xs ++ List.replicate (i - xs.length) (none : Option α)).length = i := by
      simp [List.length_append, List.length_replicate]
      omega
    rw [List.get?_eq_getElem?]
    nth_rewrite 2 [← hlen2]
    rw [List.getElem?_concat_length]

theorem sparseSet_get_ne {α : Type} (xs : List (Option α)) (i : Nat) (v : α) (j : Nat)
    (hne : j ≠ i) (w : Option α) (hj : xs.get? j = some w) :
    (sparseSet xs i v).get? j = some w := by
  have hjlt : j < xs.length := by
    by_contra hc
    rw [List.get?_eq_getElem?, List.getElem?_eq_none (Nat.le_of_not_lt hc)] at hj
    exact Option.noConfusion hj
  unfold sparseSet
  split
  case isTrue h =>
    rw [List.get?_eq_getElem?, List.getElem?_set_ne (Ne.symm hne), ← List.get?_eq_getElem?]
    exact hj
  case isFalse h =>
    rw [List.get?_eq_getElem?, List.getElem?_append_left, List.getElem?_append_left hjlt,
        ← List.get?_eq_getElem?]
    · exact hj
    · simp [List.length_append, List.length_replicate]
      omega

theorem sparseSet_length {α : Type} (xs : List (Option α)) (i : Nat) (v : α) :
    (sparseSet xs i v).length = max xs.length (i + 1) := by
  unfold sparseSet
  split
  case isTrue h => simp [List.length_set]; omega
  case isFalse h => simp [List.length_append, List.length_replicate]; omega

/-! ### C7 — the empty recording assembles to `case 0: return ["return"];` -/

/-- C7.  If no opcode is ever recorded, finalization produces exactly one
case, `case 0:`, whose only statement is the synthetic `return ["return"];`:
`buildFunctionBody` on the freshly constructed generator state yields the
single clause `⟨0, [return-return]⟩`. -/
theorem c7_empty_generator :
    buildFunctionBody initGen = [⟨0, [Stmt.returnStmt none]⟩] := by decide

/-! ### C8 — `emit` drops a `Statement` with a null/undefined payload -/

/-- C8.  Calling `emit` with the `Statement` opcode and a `null`/`undefined`
payload (or no payload at all) leaves the whole generator state unchanged:
nothing is appended to the operation log and no other field is modified. -/
theorem c8_emit_null_statement (g : GenState) :
    emit g OpCode.Statement [Val.nullish] = g ∧ emit g OpCode.Statement [] = g := by
  constructor <;> rfl

/-! ### C5 — `findContinueTarget` with no matching block -/

/-- C5 counterexample evidence.  On a live block stack with no Continue or
ScriptContinue block matching the query, `findContinueTarget` does not
return `0` symmetrically with `findBreakTarget`: the source loop has no
fallback `return`, so the call evaluates to `undefined` (modelled `none`),
while `findBreakTarget` on the same states returns the number `0`.  Checked
on the empty stack and on a stack holding a Break block whose text even
matches the query. -/
theorem c5_findContinueTarget_undefined :
    findContinueTarget initGen none = none ∧
    findBreakTarget initGen none = 0 ∧
    findContinueTarget (exec [.beginBreakBlockE "loop"]) (some "loop") = none ∧
    findContinueTarget (exec [.beginBreakBlockE "loop"]) (some "loop") ≠ some 0 := by
  refine ⟨by decide, by decide, by decide, by decide⟩

/-! ### C6 — labelled break-target resolution and ScriptBreak blocks -/

/-- C6 counterexample evidence.  A ScriptBreak block pushed by
`beginScriptBreakBlock("outer")` is NOT matched by `findBreakTarget("outer")`
— the push stores the text under `labelSymbol` while the lookup reads
`labelText`, so the lookup falls through and returns the not-found result 0
— whereas a Break block pushed with the same text IS matched (returning its
fresh break label 2).  ScriptBreak therefore does not behave like Break for
labelled target resolution, contradicting the claim. -/
theorem c6_scriptBreak_label_not_matched :
    findBreakTarget (exec [.beginScriptBreakBlockE "outer"]) (some "outer") = 0 ∧
    findBreakTarget (exec [.beginBreakBlockE "outer"]) (some "outer") = 2 ∧
    (exec [.beginScriptBreakBlockE "outer"]).blockObjs.get? 0 =
      some { kind := BlockKind.ScriptBreak, labelSymbol := some "outer", breakLabel := -1 } := by
  refine ⟨by decide, by decide, by decide⟩

/-! ### C4 — `endExceptionBlock` -/

/-- Unfolding of `emit` for a `Break` opcode (never a dropped statement, no
string wrapping). -/
theorem emit_break_eq (g : GenState) (l : Int) :
    emit g OpCode.Break [Val.lbl l] =
      { g with operations := g.operations ++ [⟨OpCode.Break, [Val.lbl l]⟩] } := rfl

/-- Unfolding of `emit` for the argumentless `Endfinally` opcode. -/
theorem emit_endfinally_eq (g : GenState) :
    emit g OpCode.Endfinally [] =
      { g with operations := g.operations ++ [⟨OpCode.Endfinally, []⟩] } := rfl

/-- C4.  For an exception block on top of the live stack, `endExceptionBlock`
emits `Break endLabel` when the block state is before Finally and
`Endfinally` otherwise, then binds the block's `endLabel` to the new
operation count, sets the block state to Done, and pops the stack. -/
theorem c4_endExceptionBlock (g : GenState) (id : Nat) (rest : List Nat) (b : BlockScope)
    (hstack : g.blockStack = id :: rest)
    (hb : g.blockObjs.get? id = some b)
    (hkind : b.kind = BlockKind.Exception)
    (hpos : 1 ≤ b.endLabel) :
    (endExceptionBlock g).operations =
      g.operations ++ [if b.state.val < ExceptionBlockState.Finally.val
                       then (⟨OpCode.Break, [Val.lbl b.endLabel]⟩ : Operation)
                       else (⟨OpCode.Endfinally, []⟩ : Operation)] ∧
    (endExceptionBlock g).labels.get? b.endLabel.toNat =
      some (some ((g.operations.length + 1 : Nat) : Int)) ∧
    (endExceptionBlock g).blockObjs.get? id = some { b with state := ExceptionBlockState.Done } ∧
    (endExceptionBlock g).blockStack = rest := by
  have hidlt : id < g.blockObjs.length := by
    by_contra hc
    rw [List.get?_eq_getElem?, List.getElem?_eq_none (Nat.le_of_not_lt hc)] at hb
    exact Option.noConfusion hb
  have hnn : (0 : Int) ≤ b.endLabel := le_trans (by norm_num) hpos
  unfold endExceptionBlock
  rw [hstack]
  simp only [hb, hkind, eq_self_iff_true, if_true]
  by_cases hst : b.state.val < ExceptionBlockState.Finally.val
  · simp only [hst, if_true, emit_break_eq, markLabel, if_pos hnn]
    refine ⟨by simp [hst], ?_, ?_, by first | rfl | trivial⟩
    · simpa using sparseSet_get_self g.labels b.endLabel.toNat (g.operations.length + 1 : Nat)
    · rw [List.get?_eq_getElem?, List.getElem?_set_self (by simpa using hidlt)]
  · simp only [hst, if_false, emit_endfinally_eq, markLabel, if_pos hnn]
    refine ⟨by simp [hst], ?_, ?_, by first | rfl | trivial⟩
    · simpa using sparseSet_get_self g.labels b.endLabel.toNat (g.operations.length + 1 : Nat)
    · rw [List.get?_eq_getElem?, List.getElem?_set_self (by simpa using hidlt)]

/-- C4 witness input: a recording whose top block is an exception block in
the Try state (after `beginExceptionBlock` and one recorded statement). -/
def c4Gen : GenState :=
  exec [.beginExceptionBlockE, .emitE .Statement [.node 10]]

/-- C4 witness: `c4_endExceptionBlock` applied to the concrete recording
`c4Gen`, whose exception block has state Try, so the Break branch fires. -/
theorem c4_endExceptionBlock_witness :
    (endExceptionBlock c4Gen).operations =
      c4Gen.operations ++ [(⟨OpCode.Break, [Val.lbl 3]⟩ : Operation)] ∧
    (endExceptionBlock c4Gen).labels.get? 3 = some (some 2) ∧
    (endExceptionBlock c4Gen).blockObjs.get? 0 =
      some { kind := BlockKind.Exception, state := ExceptionBlockState.Done,
             startLabel := 2, endLabel := 3 } ∧
    (endExceptionBlock c4Gen).blockStack = [] := by
  have h := c4_endExceptionBlock c4Gen 0 []
    { kind := BlockKind.Exception, state := ExceptionBlockState.Try, startLabel := 2, endLabel := 3 }
    (by decide) (by decide) (by decide) (by decide)
  exact ⟨h.1, h.2.1, h.2.2.1, h.2.2.2⟩

/-! ### C9 — unlabelled break resolution to a script-level block -/

/-- Whether the block at heap index `i` supports break (false when the index
is dangling). -/
def breakSupportAt (g : GenState) (i : Nat) : Bool :=
  match g.blockObjs.get? i with
  | some bb => supportsBreak bb
  | none => false

/-- C9.  When the nearest break-supporting block on the live stack is a
ScriptBreak or ScriptContinue block with the `breakLabel = -1` that
`beginScriptBreakBlock`/`beginScriptContinueBlock` initialize, an unlabelled
`findBreakTarget()` returns that `-1` — distinct from the not-found result 0
and from every valid label (≥ 1). -/
theorem c9_script_break_target (g : GenState) (pre : List Nat) (id : Nat)
    (rest : List Nat) (b : BlockScope)
    (hstack : g.blockStack = pre ++ id :: rest)
    (hpre : ∀ i ∈ pre, breakSupportAt g i = false)
    (hb : g.blockObjs.get? id = some b)
    (hkind : b.kind = BlockKind.ScriptBreak ∨ b.kind = BlockKind.ScriptContinue)
    (hinit : b.breakLabel = -1) :
    findBreakTarget g none = -1 ∧ ((-1 : Int) ≠ 0 ∧ ¬ 1 ≤ (-1 : Int)) := by
  refine ⟨?_, by norm_num⟩
  have hsup : supportsBreak b = true := by
    rcases hkind with h | h <;> simp [supportsBreak, h]
  unfold findBreakTarget
  rw [hstack]
  clear hstack
  induction pre with
  | nil =>
    simp only [List.nil_append, findBreakTargetAux, hb]
    rw [if_pos ⟨hsup, Or.inl rfl⟩]
    exact hinit
  | cons p ps ih =>
    have htail : findBreakTargetAux g.blockObjs (ps ++ id :: rest) none = -1 :=
      ih (fun i hi => hpre i (List.mem_cons_of_mem p hi))
    rw [List.cons_append]
    unfold findBreakTargetAux
    split
    · exact htail
    · rename_i bb hobj
      have hbb : supportsBreak bb = false := by
        have hp := hpre p (List.mem_cons_self p ps)
        unfold breakSupportAt at hp
        rw [hobj] at hp
        exact hp
      rw [if_neg (by simp [hbb])]
      exact htail

/-- C9 witness input: a ScriptBreak block below an exception block (which
does not support break), so the script block is the nearest break-supporting
block. -/
def c9Gen : GenState :=
  exec [.beginScriptBreakBlockE "top", .beginExceptionBlockE]

/-- C9 witness: `c9_script_break_target` applied to `c9Gen` (live stack
`[1, 0]`, block 1 an Exception block, block 0 the ScriptBreak block with
`breakLabel = -1`). -/
theorem c9_script_break_target_witness :
    findBreakTarget c9Gen none = -1 ∧ ((-1 : Int) ≠ 0 ∧ ¬ 1 ≤ (-1 : Int)) :=
  c9_script_break_target c9Gen [1] 0 []
    { kind := BlockKind.ScriptBreak, labelSymbol := some "top", breakLabel := -1 }
    (by decide) (by decide) (by decide) (Or.inl rfl) (by decide)

/-! ### Flag tracking for the assembler (dead-code suppression, fall-through) -/

/-- An opcode that is abrupt (Break, Yield, Endfinally) or a completion
(Return, Throw): exactly the opcodes whose write sets one of the two
suppression flags. -/
def isAbruptOrCompletion : OpCode → Bool
| .Break => true
| .Yield => true
| .Endfinally => true
| .Return => true
| .Throw => true
| _ => false

/-- The opcode recorded at index `j` (with a default outside the log; every
use constrains the index to the log). -/
def opCodeAt (g : GenState) (j : Nat) : OpCode :=
  ((g.operations.get? j).map Operation.code).getD OpCode.Statement

/-- Whether some label is bound exactly at operation index `i`, i.e. whether
`ensureLabels` opens a case there. -/
def labelBoundAt (g : GenState) (i : Nat) : Bool :=
  !(boundLabels g i).isEmpty

/-- The suppression gate of `writeOperation` as a single Boolean. -/
def flagsOf (a : AsmState) : Bool :=
  a.instructionWasAbrupt || a.instructionWasCompletion

/-- Declarative deadness of operation index `i`: some earlier operation is
abrupt or a completion and no label is bound after it up to and including
`i` — i.e. `i` lies between an abrupt/completion operation and the next
marked label. -/
def deadIdx (g : GenState) (i : Nat) : Prop :=
  ∃ j < i, isAbruptOrCompletion (opCodeAt g j) = true ∧
    ∀ k < i + 1, j < k → labelBoundAt g k = false

instance (g : GenState) (i : Nat) : Decidable (deadIdx g i) := by
  unfold deadIdx
  infer_instance

theorem writeStatement_abrupt (s : Stmt) (a : AsmState) :
    (writeStatement s a).instructionWasAbrupt = a.instructionWasAbrupt := by
  unfold writeStatement
  cases a.cur <;> rfl

theorem writeStatement_completion (s : Stmt) (a : AsmState) :
    (writeStatement s a).instructionWasCompletion = a.instructionWasCompletion := by
  unfold writeStatement
  cases a.cur <;> rfl

theorem flagsOf_writeStatement (s : Stmt) (a : AsmState) :
    flagsOf (writeStatement s a) = flagsOf a := by
  unfold flagsOf
  rw [writeStatement_abrupt, writeStatement_completion]

theorem flagsOf_processEvent (g : GenState) (e : BlockEvent) (a : AsmState) :
    flagsOf (processEvent g e a) = flagsOf a := by
  unfold processEvent
  cases g.blockObjs.get? e.blockId
  · rfl
  · dsimp only
    split
    · rw [flagsOf_writeStatement]
      rfl
    · rfl

theorem flagsOf_syncFrom (g : GenState) (i : Nat) :
    ∀ (evs : List BlockEvent) (a : AsmState), flagsOf (syncFrom g i a evs) = flagsOf a := by
  intro evs
  induction evs with
  | nil => intro a; rfl
  | cons e rest ih =>
    intro a
    unfold syncFrom
    split
    · rw [ih, flagsOf_processEvent]
    · rfl

theorem flagsOf_blockSync (g : GenState) (i : Nat) (a : AsmState) :
    flagsOf (blockSync g i a) = flagsOf a :=
  flagsOf_syncFrom g i _ a

theorem flagsOf_dispatch (c : OpCode) (args : List Val) (a : AsmState)
    (h : flagsOf a = false) :
    flagsOf (dispatch c args a) = isAbruptOrCompletion c := by
  have h1 : a.instructionWasAbrupt = false := by
    unfold flagsOf at h
    exact (Bool.or_eq_false_iff.mp h).1
  have h2 : a.instructionWasCompletion = false := by
    unfold flagsOf at h
    exact (Bool.or_eq_false_iff.mp h).2
  cases c <;>
    simp [dispatch, writeStatement_abrupt, writeStatement_completion, flagsOf,
          isAbruptOrCompletion, h1, h2]

theorem flagsOf_ensureLabels (g : GenState) (i : Nat) (a : AsmState) :
    flagsOf (ensureLabels g i a) = if labelBoundAt g i = true then false else flagsOf a := by
  unfold labelBoundAt
  cases hb : (boundLabels g i).isEmpty
  · simp only [ensureLabels, hb, Bool.not_false, if_pos rfl, if_neg Bool.false_ne_true]
    rfl
  · simp only [ensureLabels, hb, Bool.not_true, if_pos rfl, if_neg Bool.false_ne_true]
    rfl

theorem writeOperation_suppressed (g : GenState) (i : Nat) (c : OpCode) (args : List Val)
    (a : AsmState) (h : flagsOf a = true) :
    writeOperation g i c args a = blockSync g i a := by
  unfold writeOperation
  rw [if_pos]
  have := flagsOf_blockSync g i a
  rw [h] at this
  exact Bool.or_eq_true_iff.mp this

theorem flagsOf_writeOperation (g : GenState) (i : Nat) (c : OpCode) (args : List Val)
    (a : AsmState) :
    flagsOf (writeOperation g i c args a) = (flagsOf a || isAbruptOrCompletion c) := by
  cases h : flagsOf a
  · unfold writeOperation
    rw [if_neg]
    · rw [flagsOf_dispatch]
      · simp
      · have hb := flagsOf_blockSync g i a
        rw [h] at hb
        unfold flagsOf at hb ⊢
        simp_all
    · have hb := flagsOf_blockSync g i a
      rw [h] at hb
      unfold flagsOf at hb
      rcases Bool.or_eq_false_iff.mp hb with ⟨h1, h2⟩
      simp [h1, h2]
  · rw [writeOperation_suppressed g i c args a h, flagsOf_blockSync, h]
    simp

theorem runTo_succ (g : GenState) (i : Nat) :
    runTo g (i + 1) = stepAt g (runTo g i) i := by
  unfold runTo
  rw [List.range_succ, List.foldl_append]
  rfl

theorem flagsOf_stepAt (g : GenState) (a : AsmState) (i : Nat) (op : Operation)
    (hop : g.operations.get? i = some op) :
    flagsOf (stepAt g a i) =
      ((if labelBoundAt g i = true then false else flagsOf a) || isAbruptOrCompletion op.code) := by
  unfold stepAt
  rw [hop]
  dsimp only
  rw [flagsOf_writeOperation, flagsOf_ensureLabels]

/-- Operational/declarative correspondence for the suppression flags: after
the first `i` loop iterations the flags are raised exactly when some earlier
operation was abrupt or a completion with no label bound strictly after it
and strictly before `i`. -/
theorem flags_characterization (g : GenState) :
    ∀ i, i ≤ g.operations.length →
      (flagsOf (runTo g i) = true ↔
        ∃ j < i, isAbruptOrCompletion (opCodeAt g j) = true ∧
          ∀ k < i, j < k → labelBoundAt g k = false) := by
  intro i
  induction i with
  | zero =>
    intro _
    constructor
    · intro h
      exact Bool.noConfusion h
    · rintro ⟨j, hj, -⟩
      exact absurd hj (Nat.not_lt_zero j)
  | succ i ih =>
    intro hle
    have hi : i < g.operations.length := Nat.lt_of_succ_le hle
    obtain ⟨op, hop⟩ : ∃ op, g.operations.get? i = some op := by
      rw [List.get?_eq_getElem?]
      exact ⟨g.operations[i], List.getElem?_eq_getElem hi⟩
    have hcode : opCodeAt g i = op.code := by
      unfold opCodeAt
      rw [hop]
      rfl
    rw [runTo_succ, flagsOf_stepAt g _ i op hop]
    cases hAC : isAbruptOrCompletion op.code
    · cases hbnd : labelBoundAt g i
      · rw [if_neg Bool.false_ne_true, Bool.or_false]
        rw [ih (Nat.le_of_lt hi)]
        constructor
        · rintro ⟨j, hj, hACj, hnb⟩
          refine ⟨j, Nat.lt_succ_of_lt hj, hACj, ?_⟩
          intro k hk hjk
          rcases Nat.lt_succ_iff_lt_or_eq.mp hk with hk' | hk'
          · exact hnb k hk' hjk
          · rw [hk']
            exact hbnd
        · rintro ⟨j, hj, hACj, hnb⟩
          have hji : j ≠ i := by
            intro he
            rw [he, hcode, hAC] at hACj
            exact Bool.noConfusion hACj
          refine ⟨j, Nat.lt_of_le_of_ne (Nat.lt_succ_iff.mp hj) hji, hACj, ?_⟩
          intro k hk hjk
          exact hnb k (Nat.lt_succ_of_lt hk) hjk
      · rw [if_pos rfl, Bool.or_false]
        constructor
        · intro h
          exact Bool.noConfusion h
        · rintro ⟨j, hj, hACj, hnb⟩
          have hji : j ≠ i := by
            intro he
            rw [he, hcode, hAC] at hACj
            exact Bool.noConfusion hACj
          have hjlt : j < i := Nat.lt_of_le_of_ne (Nat.lt_succ_iff.mp hj) hji
          have := hnb i (Nat.lt_succ_self i) hjlt
          rw [hbnd] at this
          exact Bool.noConfusion this
    · rw [Bool.or_true]
      constructor
      · intro _
        refine ⟨i, Nat.lt_succ_self i, by rw [hcode]; exact hAC, ?_⟩
        intro k hk hik
        exact absurd hik (Nat.not_lt_of_le (Nat.le_of_lt_succ hk))
      · intro _
        rfl

/-! ### C3 — dead-code suppression -/

/-- C3.  Opcodes recorded after an abrupt (Break, Yield, Endfinally) or
completion (Return, Throw) operation and before the next marked label
contribute nothing to the assembled output.  First conjunct: the declarative
deadness of index `i` coincides exactly with the suppression gate of the
finalizer at index `i` (so suppression also ends exactly when a label mark
opens a new case).  Second conjunct: for a dead index the whole loop
iteration collapses to the block-event sync — the opcode's dispatch writes
no statement into any clause. -/
theorem c3_dead_code_suppressed (g : GenState) (i : Nat) (hi : i < g.operations.length) :
    (deadIdx g i ↔ flagsOf (ensureLabels g i (runTo g i)) = true) ∧
    (deadIdx g i →
      stepAt g (runTo g i) i = blockSync g i (ensureLabels g i (runTo g i))) := by
  have hflags : flagsOf (ensureLabels g i (runTo g i)) =
      if labelBoundAt g i = true then false else flagsOf (runTo g i) :=
    flagsOf_ensureLabels g i (runTo g i)
  have hchar := flags_characterization g i (Nat.le_of_lt hi)
  have hiff : deadIdx g i ↔ flagsOf (ensureLabels g i (runTo g i)) = true := by
    rw [hflags]
    cases hbnd : labelBoundAt g i
    · rw [if_neg Bool.false_ne_true]
      rw [hchar]
      constructor
      · rintro ⟨j, hj, hACj, hnb⟩
        exact ⟨j, hj, hACj, fun k hk hjk => hnb k (Nat.lt_succ_of_lt hk) hjk⟩
      · rintro ⟨j, hj, hACj, hnb⟩
        refine ⟨j, hj, hACj, ?_⟩
        intro k hk hjk
        rcases Nat.lt_succ_iff_lt_or_eq.mp hk with hk' | hk'
        · exact hnb k hk' hjk
        · rw [hk']
          exact hbnd
    · rw [if_pos rfl]
      constructor
      · rintro ⟨j, hj, hACj, hnb⟩
        have := hnb i (Nat.lt_succ_self i) hj
        rw [hbnd] at this
        exact Bool.noConfusion this
      · intro h
        exact Bool.noConfusion h
  refine ⟨hiff, ?_⟩
  intro hdead
  obtain ⟨op, hop⟩ : ∃ op, g.operations.get? i = some op := by
    rw [List.get?_eq_getElem?]
    exact ⟨g.operations[i], List.getElem?_eq_getElem hi⟩
  unfold stepAt
  rw [hop]
  dsimp only
  exact writeOperation_suppressed g i op.code op.args _ (hiff.mp hdead)

/-- C3 witness input: a Yield opcode followed by a Statement opcode with no
label marked in between, so index 1 is dead. -/
def c3Gen : GenState :=
  exec [.emitE .Yield [.node 42], .emitE .Statement [.node 3]]

/-- C3 witness: `c3_dead_code_suppressed` applied to `c3Gen` at the dead
index 1. -/
theorem c3_dead_code_suppressed_witness :
    flagsOf (ensureLabels c3Gen 1 (runTo c3Gen 1)) = true ∧
    stepAt c3Gen (runTo c3Gen 1) 1 = blockSync c3Gen 1 (ensureLabels c3Gen 1 (runTo c3Gen 1)) := by
  have h := c3_dead_code_suppressed c3Gen 1 (by decide)
  have hdead : deadIdx c3Gen 1 := by decide
  exact ⟨h.1.mp hdead, h.2 hdead⟩

/-! ### Shape of `ensureLabels` and projections of the assembler steps -/

/-- The fall-through fix-up statements `ensureLabels` appends to the open
clause before committing it: `[__state.label = n;]` when the previous
instruction was neither abrupt nor a completion and this is not the very
first case, else nothing. -/
def fixupList (i : Nat) (a : AsmState) : List Stmt :=
  if a.instructionWasAbrupt = false ∧ a.instructionWasCompletion = false ∧ 0 < i then
    [Stmt.setLabel (caseCount a)]
  else []

/-- The clause list after `ensureLabels` commits the open clause (extended
by the fix-up); with no open clause the clause list is unchanged. -/
def committedOf (i : Nat) (a : AsmState) : List Clause :=
  match a.cur with
  | some c => a.clauses ++ [{ c with stmts := c.stmts ++ fixupList i a }]
  | none => a.clauses

/-- The seed statements of a freshly opened case: `__state.trys = [];` for
case 0 of a function with protected regions. -/
def seedOf (g : GenState) (a : AsmState) : List Stmt :=
  if caseCount a = 0 ∧ g.hasProtectedRegions = true then [Stmt.trysInit] else []

theorem ensureLabels_empty (g : GenState) (i : Nat) (a : AsmState)
    (h : (boundLabels g i).isEmpty = true) :
    ensureLabels g i a = a := by
  simp only [ensureLabels, h, if_pos rfl, if_true]

theorem ensureLabels_create (g : GenState) (i : Nat) (a : AsmState)
    (h : (boundLabels g i).isEmpty = false) :
    ensureLabels g i a =
      { a with labelNumbers :=
                 (boundLabels g i).foldl (fun ln l => sparseSet ln l (caseCount a)) a.labelNumbers,
               clauses := committedOf i a,
               cur := some ⟨caseCount a, seedOf g a⟩,
               instructionWasAbrupt := false,
               instructionWasCompletion := false } := by
  simp only [ensureLabels, h, if_neg Bool.false_ne_true]
  unfold committedOf fixupList seedOf
  by_cases hf : a.instructionWasAbrupt = false ∧ a.instructionWasCompletion = false ∧ 0 < i
  · rw [if_pos hf, if_pos hf]
    cases hcur : a.cur <;> simp [writeStatement, hcur, caseCount]
  · rw [if_neg hf, if_neg hf]
    cases hcur : a.cur <;> simp [writeStatement, hcur, caseCount]

theorem writeStatement_clauses (s : Stmt) (a : AsmState) :
    (writeStatement s a).clauses = a.clauses := by
  unfold writeStatement
  cases a.cur <;> rfl

theorem writeStatement_cur_num (s : Stmt) (a : AsmState) :
    ((writeStatement s a).cur).map Clause.num = (a.cur).map Clause.num := by
  unfold writeStatement
  cases hcur : a.cur
  · simp [hcur]
  · rfl

theorem writeStatement_labelNumbers (s : Stmt) (a : AsmState) :
    (writeStatement s a).labelNumbers = a.labelNumbers := by
  unfold writeStatement
  cases hcur : a.cur
  · simp [hcur]
  · rfl

theorem processEvent_clauses (g : GenState) (e : BlockEvent) (a : AsmState) :
    (processEvent g e a).clauses = a.clauses := by
  unfold processEvent
  cases g.blockObjs.get? e.blockId
  · rfl
  · dsimp only
    split
    · rw [writeStatement_clauses]
    · rfl

theorem processEvent_cur_num (g : GenState) (e : BlockEvent) (a : AsmState) :
    ((processEvent g e a).cur).map Clause.num = (a.cur).map Clause.num := by
  unfold processEvent
  cases g.blockObjs.get? e.blockId
  · rfl
  · dsimp only
    split
    · rw [writeStatement_cur_num]
    · rfl

theorem processEvent_labelNumbers (g : GenState) (e : BlockEvent) (a : AsmState) :
    (processEvent g e a).labelNumbers = a.labelNumbers := by
  unfold processEvent
  cases g.blockObjs.get? e.blockId
  · rfl
  · dsimp only
    split
    · rw [writeStatement_labelNumbers]
    · rfl

theorem syncFrom_clauses (g : GenState) (i : Nat) :
    ∀ (evs : List BlockEvent) (a : AsmState), (syncFrom g i a evs).clauses = a.clauses := by
  intro evs
  induction evs with
  | nil => intro a; rfl
  | cons e rest ih =>
    intro a
    unfold syncFrom
    split
    · rw [ih, processEvent_clauses]
    · rfl

theorem syncFrom_cur_num (g : GenState) (i : Nat) :
    ∀ (evs : List BlockEvent) (a : AsmState),
      ((syncFrom g i a evs).cur).map Clause.num = (a.cur).map Clause.num := by
  intro evs
  induction evs with
  | nil => intro a; rfl
  | cons e rest ih =>
    intro a
    unfold syncFrom
    split
    · rw [ih, processEvent_cur_num]
    · rfl

theorem syncFrom_labelNumbers (g : GenState) (i : Nat) :
    ∀ (evs : List BlockEvent) (a : AsmState),
      (syncFrom g i a evs).labelNumbers = a.labelNumbers := by
  intro evs
  induction evs with
  | nil => intro a; rfl
  | cons e rest ih =>
    intro a
    unfold syncFrom
    split
    · rw [ih, processEvent_labelNumbers]
    · rfl

theorem blockSync_clauses (g : GenState) (i : Nat) (a : AsmState) :
    (blockSync g i a).clauses = a.clauses :=
  syncFrom_clauses g i _ a

theorem blockSync_cur_num (g : GenState) (i : Nat) (a : AsmState) :
    ((blockSync g i a).cur).map Clause.num = (a.cur).map Clause.num :=
  syncFrom_cur_num g i _ a

theorem blockSync_labelNumbers (g : GenState) (i : Nat) (a : AsmState) :
    (blockSync g i a).labelNumbers = a.labelNumbers :=
  syncFrom_labelNumbers g i _ a

theorem dispatch_clauses (c : OpCode) (args : List Val) (a : AsmState) :
    (dispatch c args a).clauses = a.clauses := by
  cases c <;> simp [dispatch, writeStatement_clauses]

theorem dispatch_cur_num (c : OpCode) (args : List Val) (a : AsmState) :
    ((dispatch c args a).cur).map Clause.num = (a.cur).map Clause.num := by
  cases c <;> simp [dispatch, writeStatement_cur_num]

theorem dispatch_labelNumbers (c : OpCode) (args : List Val) (a : AsmState) :
    (dispatch c args a).labelNumbers = a.labelNumbers := by
  cases c <;> simp [dispatch, writeStatement_labelNumbers]

theorem writeOperation_clauses (g : GenState) (i : Nat) (c : OpCode) (args : List Val)
    (a : AsmState) :
    (writeOperation g i c args a).clauses = a.clauses := by
  simp only [writeOperation]
  split
  · rw [blockSync_clauses]
  · rw [dispatch_clauses]
    simpa using blockSync_clauses g i a

theorem writeOperation_cur_num (g : GenState) (i : Nat) (c : OpCode) (args : List Val)
    (a : AsmState) :
    ((writeOperation g i c args a).cur).map Clause.num = (a.cur).map Clause.num := by
  simp only [writeOperation]
  split
  · rw [blockSync_cur_num]
  · rw [dispatch_cur_num]
    simpa using blockSync_cur_num g i a

theorem writeOperation_labelNumbers (g : GenState) (i : Nat) (c : OpCode) (args : List Val)
    (a : AsmState) :
    (writeOperation g i c args a).labelNumbers = a.labelNumbers := by
  simp only [writeOperation]
  split
  · rw [blockSync_labelNumbers]
  · rw [dispatch_labelNumbers]
    simpa using blockSync_labelNumbers g i a

theorem writeFinalReturn_clauses (a : AsmState) :
    (writeFinalReturn a).clauses = a.clauses := by
  unfold writeFinalReturn
  rw [writeStatement_clauses]

theorem writeFinalReturn_cur_num (a : AsmState) :
    ((writeFinalReturn a).cur).map Clause.num = (a.cur).map Clause.num := by
  unfold writeFinalReturn
  rw [writeStatement_cur_num]

theorem writeFinalReturn_labelNumbers (a : AsmState) :
    (writeFinalReturn a).labelNumbers = a.labelNumbers := by
  unfold writeFinalReturn
  rw [writeStatement_labelNumbers]

/-! ### Clause numbering discipline of the assembler -/

/-- Invariant of the assembler state: committed clauses are numbered by
position, the open clause continues the numbering, and before the first
case nothing has been committed. -/
def CInv (a : AsmState) : Prop :=
  (∀ k c, a.clauses.get? k = some c → c.num = k) ∧
  (∀ c, a.cur = some c → c.num = a.clauses.length) ∧
  (a.cur = none → a.clauses = [])

theorem CInv_init : CInv ({} : AsmState) := by
  refine ⟨?_, ?_, fun _ => rfl⟩
  · intro k c h
    simp [AsmState.clauses] at h
  · intro c h
    exact Option.noConfusion h

theorem CInv_congr (a b : AsmState)
    (hc : b.clauses = a.clauses)
    (hn : (b.cur).map Clause.num = (a.cur).map Clause.num)
    (h : CInv a) : CInv b := by
  obtain ⟨h1, h2, h3⟩ := h
  refine ⟨?_, ?_, ?_⟩
  · intro k c hk
    rw [hc] at hk
    exact h1 k c hk
  · intro c hcur
    rw [hcur] at hn
    cases hacur : a.cur with
    | none => rw [hacur] at hn; exact Option.noConfusion hn
    | some c0 =>
      rw [hacur] at hn
      have : c.num = c0.num := by simpa using hn
      rw [hc, this]
      exact h2 c0 hacur
  · intro hcur
    rw [hcur] at hn
    cases hacur : a.cur with
    | none => rw [hc]; exact h3 hacur
    | some c0 => rw [hacur] at hn; exact Option.noConfusion hn

theorem CInv_ensureLabels (g : GenState) (i : Nat) (a : AsmState) (h : CInv a) :
    CInv (ensureLabels g i a) := by
  cases hb : (boundLabels g i).isEmpty
  · rw [ensureLabels_create g i a hb]
    obtain ⟨h1, h2, h3⟩ := h
    cases hcur : a.cur with
    | none =>
      have hnil : a.clauses = [] := h3 hcur
      refine ⟨?_, ?_, ?_⟩
      · intro k c hk
        simp only [committedOf, hcur] at hk
        rw [hnil] at hk
        simp at hk
      · intro c hc
        have : c = ⟨caseCount a, seedOf g a⟩ := by simpa using hc.symm
        rw [this]
        simp [committedOf, hcur, caseCount, hnil, hcur]
      · intro hcontra
        exact Option.noConfusion hcontra
    | some c0 =>
      refine ⟨?_, ?_, ?_⟩
      · intro k c hk
        simp only [committedOf, hcur] at hk
        rw [List.get?_eq_getElem?] at hk
        by_cases hklt : k < a.clauses.length
        · rw [List.getElem?_append_left hklt, ← List.get?_eq_getElem?] at hk
          exact h1 k c hk
        · have hkge : a.clauses.length ≤ k := Nat.le_of_not_lt hklt
          by_cases hkeq : k = a.clauses.length
          · rw [hkeq] at hk
            rw [List.getElem?_concat_length] at hk
            have : c = { c0 with stmts := c0.stmts ++ fixupList i a } := by
              exact (Option.some.injEq _ _ ▸ hk).symm ▸ rfl
            rw [hkeq, this]
            exact h2 c0 hcur
          · have : k ≥ (a.clauses ++ [{ c0 with stmts := c0.stmts ++ fixupList i a }]).length := by
              simp [List.length_append]
              omega
            rw [List.getElem?_eq_none this] at hk
            exact Option.noConfusion hk
      · intro c hc
        have : c = ⟨caseCount a, seedOf g a⟩ := by simpa using hc.symm
        rw [this]
        simp [committedOf, hcur, caseCount, List.length_append]
      · intro hcontra
        exact Option.noConfusion hcontra
  · rw [ensureLabels_empty g i a hb]
    exact h

theorem CInv_writeOperation (g : GenState) (i : Nat) (c : OpCode) (args : List Val)
    (a : AsmState) (h : CInv a) : CInv (writeOperation g i c args a) :=
  CInv_congr a _ (writeOperation_clauses g i c args a) (writeOperation_cur_num g i c args a) h

theorem CInv_stepAt (g : GenState) (a : AsmState) (i : Nat) (h : CInv a) :
    CInv (stepAt g a i) := by
  unfold stepAt
  cases g.operations.get? i
  · exact h
  · exact CInv_writeOperation g i _ _ _ (CInv_ensureLabels g i a h)

theorem CInv_runTo (g : GenState) (i : Nat) : CInv (runTo g i) := by
  induction i with
  | zero => exact CInv_init
  | succ i ih =>
    rw [runTo_succ]
    exact CInv_stepAt g _ i ih

theorem CInv_buildFull (g : GenState) : CInv (buildFull g) := by
  simp only [buildFull]
  have h := CInv_ensureLabels g g.operations.length _ (CInv_runTo g g.operations.length)
  split
  · exact h
  · exact CInv_congr _ _ (writeFinalReturn_clauses _) (writeFinalReturn_cur_num _) h

/-- Clause numbering of the final output: the clause at position `k` of
`buildFunctionBody` is `case k:`. -/
theorem buildFunctionBody_num (g : GenState) (k : Nat) (c : Clause)
    (h : (buildFunctionBody g).get? k = some c) : c.num = k := by
  obtain ⟨h1, h2, h3⟩ := CInv_buildFull g
  unfold buildFunctionBody outClauses at h
  rw [List.get?_eq_getElem?] at h
  cases hcur : (buildFull g).cur with
  | none =>
    rw [hcur] at h
    simp only [List.append_nil] at h
    rw [← List.get?_eq_getElem?] at h
    exact h1 k c h
  | some c0 =>
    rw [hcur] at h
    by_cases hk : k < (buildFull g).clauses.length
    · rw [List.getElem?_append_left hk, ← List.get?_eq_getElem?] at h
      exact h1 k c h
    · by_cases hkeq : k = (buildFull g).clauses.length
      · rw [hkeq, List.getElem?_concat_length] at h
        have : c = c0 := by simpa using h.symm
        rw [hkeq, this]
        exact h2 c0 hcur
      · have : (buildFull g).clauses.length + 1 ≤ k := by
          omega
        rw [List.getElem?_eq_none (by simp [List.length_append]; omega)] at h
        exact Option.noConfusion h

/-! ### Growth of the committed clause list -/

theorem ensureLabels_clauses_pfx (g : GenState) (i : Nat) (a : AsmState) :
    a.clauses <+: (ensureLabels g i a).clauses := by
  cases hb : (boundLabels g i).isEmpty
  · rw [ensureLabels_create g i a hb]
    simp only [committedOf]
    cases a.cur
    · exact List.prefix_refl _
    · exact ⟨_, rfl⟩
  · rw [ensureLabels_empty g i a hb]

theorem stepAt_clauses_pfx (g : GenState) (a : AsmState) (i : Nat) :
    a.clauses <+: (stepAt g a i).clauses := by
  unfold stepAt
  cases g.operations.get? i
  · exact List.prefix_refl _
  · dsimp only
    rw [writeOperation_clauses]
    exact ensureLabels_clauses_pfx g i a

theorem runTo_clauses_pfx (g : GenState) (i i' : Nat) (h : i ≤ i') :
    (runTo g i).clauses <+: (runTo g i').clauses := by
  induction i' with
  | zero =>
    rw [Nat.le_zero.mp h]
  | succ i' ih =>
    rcases Nat.lt_or_eq_of_le h with h' | h'
    · rw [runTo_succ]
      exact List.IsPrefix.trans (ih (Nat.lt_succ_iff.mp h')) (stepAt_clauses_pfx g _ i')
    · rw [h']

theorem buildFull_clauses_pfx (g : GenState) (i : Nat) (h : i ≤ g.operations.length) :
    (runTo g i).clauses <+: (buildFull g).clauses := by
  simp only [buildFull]
  have h1 := runTo_clauses_pfx g i g.operations.length h
  have h2 := ensureLabels_clauses_pfx g g.operations.length (runTo g g.operations.length)
  split
  · exact h1.trans h2
  · rw [writeFinalReturn_clauses]
    exact h1.trans h2

/-- A committed clause stays at its position in the final output. -/
theorem buildFunctionBody_stable (g : GenState) (i : Nat) (h : i ≤ g.operations.length)
    (k : Nat) (c : Clause) (hk : (runTo g i).clauses.get? k = some c) :
    (buildFunctionBody g).get? k = some c := by
  have hpre := buildFull_clauses_pfx g i h
  obtain ⟨t, ht⟩ := hpre
  have hklt : k < (runTo g i).clauses.length := by
    by_contra hc
    rw [List.get?_eq_getElem?, List.getElem?_eq_none (Nat.le_of_not_lt hc)] at hk
    exact Option.noConfusion hk
  unfold buildFunctionBody outClauses
  rw [List.get?_eq_getElem?, List.getElem?_append_left, ← ht, List.getElem?_append_left hklt,
      ← List.get?_eq_getElem?]
  · exact hk
  · rw [← ht]
    simp [List.length_append]
    omega

/-! ### Once a case is open it stays open -/

theorem ensureLabels_cur_isSome (g : GenState) (i : Nat) (a : AsmState)
    (h : (a.cur).isSome = true) : ((ensureLabels g i a).cur).isSome = true := by
  cases hb : (boundLabels g i).isEmpty
  · rw [ensureLabels_create g i a hb]
    rfl
  · rw [ensureLabels_empty g i a hb]
    exact h

theorem cur_isSome_of_map_num {a b : AsmState}
    (hn : (b.cur).map Clause.num = (a.cur).map Clause.num)
    (h : (a.cur).isSome = true) : (b.cur).isSome = true := by
  cases hb : b.cur with
  | some c => rfl
  | none =>
    exfalso
    rw [hb] at hn
    cases ha : a.cur with
    | none => rw [ha] at h; exact Bool.noConfusion h
    | some c => rw [ha] at hn; exact Option.noConfusion hn

theorem stepAt_cur_isSome (g : GenState) (a : AsmState) (i : Nat)
    (h : (a.cur).isSome = true) : ((stepAt g a i).cur).isSome = true := by
  unfold stepAt
  cases g.operations.get? i
  · exact h
  · exact cur_isSome_of_map_num (writeOperation_cur_num g i _ _ _) (ensureLabels_cur_isSome g i a h)

theorem runTo_cur_isSome (g : GenState) (i i' : Nat) (hle : i ≤ i')
    (h : ((runTo g i).cur).isSome = true) : ((runTo g i').cur).isSome = true := by
  induction i' with
  | zero => rw [Nat.le_zero.mp hle] at h; exact h
  | succ i' ih =>
    rcases Nat.lt_or_eq_of_le hle with h' | h'
    · rw [runTo_succ]
      exact stepAt_cur_isSome g _ i' (ih (Nat.lt_succ_iff.mp h'))
    · rw [← h']
      exact h

theorem buildFull_cur_isSome (g : GenState) (i : Nat) (h : i ≤ g.operations.length)
    (hc : ((runTo g i).cur).isSome = true) : ((buildFull g).cur).isSome = true := by
  simp only [buildFull]
  have h1 := runTo_cur_isSome g i g.operations.length h hc
  have h2 := ensureLabels_cur_isSome g g.operations.length _ h1
  split
  · exact h2
  · exact cur_isSome_of_map_num (writeFinalReturn_cur_num _) h2

/-! ### The open clause never contains a fix-up -/

/-- `ensureLabels` appends the fall-through fix-up only to the clause it is
about to commit, so the open clause never holds one. -/
def curNoSetLabel (a : AsmState) : Prop :=
  ∀ c, a.cur = some c → ∀ m, Stmt.setLabel m ∉ c.stmts

theorem curNoSetLabel_writeStatement (s : Stmt) (a : AsmState)
    (hs : ∀ m, s ≠ Stmt.setLabel m) (h : curNoSetLabel a) :
    curNoSetLabel (writeStatement s a) := by
  intro c hc m hm
  unfold writeStatement at hc
  cases hacur : a.cur with
  | none =>
    rw [hacur] at hc
    exact h c hc m hm
  | some c0 =>
    rw [hacur] at hc
    have hc' : ({ c0 with stmts := c0.stmts ++ [s] } : Clause) = c := Option.some.inj hc
    rw [← hc'] at hm
    rcases List.mem_append.mp hm with h1 | h1
    · exact h c0 hacur m h1
    · exact hs m (List.mem_singleton.mp h1).symm

theorem curNoSetLabel_processEvent (g : GenState) (e : BlockEvent) (a : AsmState)
    (h : curNoSetLabel a) : curNoSetLabel (processEvent g e a) := by
  unfold processEvent
  cases g.blockObjs.get? e.blockId
  · exact h
  · dsimp only
    split
    · exact curNoSetLabel_writeStatement _ _ (fun m hm => Stmt.noConfusion hm) h
    · exact h

theorem curNoSetLabel_syncFrom (g : GenState) (i : Nat) :
    ∀ (evs : List BlockEvent) (a : AsmState),
      curNoSetLabel a → curNoSetLabel (syncFrom g i a evs) := by
  intro evs
  induction evs with
  | nil => intro a h; exact h
  | cons e rest ih =>
    intro a h
    unfold syncFrom
    split
    · exact ih _ (curNoSetLabel_processEvent g e a h)
    · exact h

theorem curNoSetLabel_dispatch (c : OpCode) (args : List Val) (a : AsmState)
    (h : curNoSetLabel a) : curNoSetLabel (dispatch c args a) := by
  cases c <;>
    exact curNoSetLabel_writeStatement _ _ (fun m hm => Stmt.noConfusion hm) h

theorem curNoSetLabel_writeOperation (g : GenState) (i : Nat) (c : OpCode) (args : List Val)
    (a : AsmState) (h : curNoSetLabel a) : curNoSetLabel (writeOperation g i c args a) := by
  simp only [writeOperation]
  split
  · exact curNoSetLabel_syncFrom g i _ a h
  · exact curNoSetLabel_dispatch c args _ (curNoSetLabel_syncFrom g i _ a h)

theorem curNoSetLabel_ensureLabels (g : GenState) (i : Nat) (a : AsmState)
    (h : curNoSetLabel a) : curNoSetLabel (ensureLabels g i a) := by
  cases hb : (boundLabels g i).isEmpty
  · rw [ensureLabels_create g i a hb]
    intro c hc m hm
    have hc' : (⟨caseCount a, seedOf g a⟩ : Clause) = c := Option.some.inj hc
    rw [← hc'] at hm
    unfold seedOf at hm
    split at hm
    · exact Stmt.noConfusion (List.mem_singleton.mp hm)
    · cases hm
  · rw [ensureLabels_empty g i a hb]
    exact h

theorem curNoSetLabel_stepAt (g : GenState) (a : AsmState) (i : Nat)
    (h : curNoSetLabel a) : curNoSetLabel (stepAt g a i) := by
  unfold stepAt
  cases g.operations.get? i
  · exact h
  · exact curNoSetLabel_writeOperation g i _ _ _ (curNoSetLabel_ensureLabels g i a h)

theorem curNoSetLabel_runTo (g : GenState) (i : Nat) : curNoSetLabel (runTo g i) := by
  induction i with
  | zero => intro c hc; exact Option.noConfusion hc
  | succ i ih =>
    rw [runTo_succ]
    exact curNoSetLabel_stepAt g _ i ih

/-! ### The last written (non-suppressed) operation before an index -/

/-- Whether operation `j` is written (not suppressed) by the finalizer. -/
def liveIdx (g : GenState) (j : Nat) : Bool :=
  !(decide (deadIdx g j))

/-- The last written operation index strictly before `i`. -/
def lastWritten (g : GenState) (i : Nat) : Option Nat :=
  ((List.range i).filter (liveIdx g)).getLast?

theorem deadIdx_zero (g : GenState) : ¬ deadIdx g 0 := by
  rintro ⟨j, hj, -⟩
  exact Nat.not_lt_zero j hj

theorem not_deadIdx_of_bound (g : GenState) (k : Nat) (h : labelBoundAt g k = true) :
    ¬ deadIdx g k := by
  rintro ⟨j, hj, hAC, hnb⟩
  have := hnb k (Nat.lt_succ_self k) hj
  rw [h] at this
  exact Bool.noConfusion this

theorem lastWritten_isSome (g : GenState) (i : Nat) (h0 : 0 < i) :
    ∃ j, lastWritten g i = some j := by
  have hmem : 0 ∈ (List.range i).filter (liveIdx g) :=
    List.mem_filter.mpr ⟨List.mem_range.mpr h0, by simp [liveIdx, deadIdx_zero g]⟩
  have hne : (List.range i).filter (liveIdx g) ≠ [] := List.ne_nil_of_mem hmem
  rcases Option.isSome_iff_exists.mp (List.getLast?_isSome.mpr hne) with ⟨j, hj⟩
  exact ⟨j, hj⟩

theorem getLast?_max_of_sorted :
    ∀ (l : List Nat), l.Pairwise (· < ·) → ∀ j, l.getLast? = some j → ∀ x ∈ l, x ≤ j := by
  intro l
  induction l with
  | nil =>
    intro _ j _ x hx
    cases hx
  | cons a t ih =>
    intro hs j hl x hx
    cases t with
    | nil =>
      have hja : j = a := by
        have : (([a] : List Nat)).getLast? = some a := rfl
        rw [this] at hl
        exact (Option.some.inj hl).symm
      rcases List.mem_singleton.mp hx with h1
      omega
    | cons b t2 =>
      rw [List.getLast?_cons_cons] at hl
      rcases List.mem_cons.mp hx with h1 | h1
      · have hjmem : j ∈ b :: t2 := List.mem_of_mem_getLast? hl
        have : a < j := (List.pairwise_cons.mp hs).1 j hjmem
        omega
      · exact ih (List.pairwise_cons.mp hs).2 j hl x h1

theorem lastWritten_spec (g : GenState) (i j : Nat) (h : lastWritten g i = some j) :
    j < i ∧ ¬ deadIdx g j ∧ ∀ k, k < i → ¬ deadIdx g k → k ≤ j := by
  have hjmem : j ∈ (List.range i).filter (liveIdx g) := List.mem_of_mem_getLast? h
  have hj1 := List.mem_filter.mp hjmem
  refine ⟨List.mem_range.mp hj1.1, ?_, ?_⟩
  · have := hj1.2
    simpa [liveIdx] using this
  · intro k hk hklive
    have hkmem : k ∈ (List.range i).filter (liveIdx g) :=
      List.mem_filter.mpr ⟨List.mem_range.mpr hk, by simp [liveIdx, hklive]⟩
    exact getLast?_max_of_sorted _ ((List.pairwise_lt_range i).filter _) j h k hkmem

theorem lastWritten_eq_of (g : GenState) (i j : Nat) (h1 : j < i) (h2 : ¬ deadIdx g j)
    (h3 : ∀ k, j < k → k < i → deadIdx g k) : lastWritten g i = some j := by
  unfold lastWritten
  rw [show i = (j + 1) + (i - (j + 1)) by omega, List.range_add, List.filter_append]
  have hnil : (List.filter (liveIdx g)
      ((List.range (i - (j + 1))).map (fun x => (j + 1) + x))) = [] := by
    rw [List.filter_eq_nil_iff]
    intro a ha
    rcases List.mem_map.mp ha with ⟨x, hx, rfl⟩
    have hxlt := List.mem_range.mp hx
    have hdead := h3 ((j + 1) + x) (by omega) (by omega)
    simp [liveIdx, hdead]
  rw [hnil, List.append_nil, List.range_succ, List.filter_append]
  have hone : List.filter (liveIdx g) [j] = [j] := by
    simp [liveIdx, h2]
  rw [hone, List.getLast?_concat]

/-- Relation between the suppression flags and the last written operation:
after `i` loop iterations (`0 < i`) the flags hold the abrupt/completion
classification of the last written operation. -/
theorem flags_eq_lastWritten (g : GenState) (i : Nat) (hle : i ≤ g.operations.length)
    (h0 : 0 < i) :
    ∃ j, lastWritten g i = some j ∧
      flagsOf (runTo g i) = isAbruptOrCompletion (opCodeAt g j) := by
  obtain ⟨j, hj⟩ := lastWritten_isSome g i h0
  obtain ⟨hjlt, hjlive, hjmax⟩ := lastWritten_spec g i j hj
  refine ⟨j, hj, ?_⟩
  suffices h : flagsOf (runTo g i) = true ↔ isAbruptOrCompletion (opCodeAt g j) = true by
    cases hIA : isAbruptOrCompletion (opCodeAt g j)
    · cases hFv : flagsOf (runTo g i)
      · rfl
      · have := h.mp hFv
        rw [hIA] at this
        exact Bool.noConfusion this
    · cases hFv : flagsOf (runTo g i)
      · have := h.mpr hIA
        rw [hFv] at this
        exact Bool.noConfusion this
      · rfl
  constructor
  · intro hF
    rw [flags_characterization g i hle] at hF
    have hex : ∃ m, m < i ∧ isAbruptOrCompletion (opCodeAt g m) = true ∧
        ∀ k < i, m < k → labelBoundAt g k = false := by
      obtain ⟨j', hj', hACj', hnb'⟩ := hF
      exact ⟨j', hj', hACj', hnb'⟩
    obtain ⟨hj0lt, hj0AC, hj0nb⟩ := Nat.find_spec hex
    have hj0live : ¬ deadIdx g (Nat.find hex) := by
      rintro ⟨j1, hj1, hACj1, hnb1⟩
      refine Nat.find_min hex hj1 ⟨lt_trans hj1 hj0lt, hACj1, ?_⟩
      intro k hk hj1k
      by_cases hkj0 : k ≤ Nat.find hex
      · exact hnb1 k (Nat.lt_succ_of_le hkj0) hj1k
      · exact hj0nb k hk (Nat.lt_of_not_le hkj0)
    have hdead : ∀ k, Nat.find hex < k → k < i → deadIdx g k := by
      intro k hj0k hki
      exact ⟨Nat.find hex, hj0k, hj0AC,
        fun m hm hj0m => hj0nb m (Nat.lt_of_le_of_lt (Nat.lt_succ_iff.mp hm) hki) hj0m⟩
    have heq := lastWritten_eq_of g i (Nat.find hex) hj0lt hj0live hdead
    rw [hj] at heq
    rw [Option.some.inj heq]
    exact hj0AC
  · intro hIA
    rw [flags_characterization g i hle]
    refine ⟨j, hjlt, hIA, ?_⟩
    intro k hki hjk
    cases hbk : labelBoundAt g k
    · rfl
    · exfalso
      have hklive : ¬ deadIdx g k := not_deadIdx_of_bound g k hbk
      have := hjmax k hki hklive
      omega

/-! ### C2 — fall-through fix-up between consecutive cases -/

/-- C2.  When a label mark at operation index `i` closes case N (the open
clause `c`, numbered `c.num = N` and followed in the assembled switch body
by case N+1) and opens case N+1, the committed form `c'` of case N — the
clause `buildFunctionBody` returns at position N — carries the fix-up
`__state.label = N+1;` as its last statement if and only if the final
operation written into case N (the last non-suppressed operation index
before `i`, `lastWritten`) was neither abrupt nor a completion. -/
theorem c2_fallthrough_fixup (g : GenState) (i : Nat) (c : Clause)
    (hle : i ≤ g.operations.length)
    (h0 : 0 < i)
    (hbnd : (boundLabels g i).isEmpty = false)
    (hcur : (runTo g i).cur = some c) :
    ∃ j c', lastWritten g i = some j ∧
      (ensureLabels g i (runTo g i)).clauses = (runTo g i).clauses ++ [c'] ∧
      c'.num = c.num ∧
      ((ensureLabels g i (runTo g i)).cur).map Clause.num = some (c.num + 1) ∧
      (buildFunctionBody g).get? c.num = some c' ∧
      (∃ d, (buildFunctionBody g).get? (c.num + 1) = some d) ∧
      (c'.stmts.getLast? = some (Stmt.setLabel (c.num + 1)) ↔
        isAbruptOrCompletion (opCodeAt g j) = false) := by
  obtain ⟨j, hj, hflag⟩ := flags_eq_lastWritten g i hle h0
  set a := runTo g i with ha
  have hcnum : c.num = a.clauses.length := (CInv_runTo g i).2.1 c hcur
  have hcase : caseCount a = c.num + 1 := by
    unfold caseCount
    rw [hcur, hcnum]
  set c' : Clause := { c with stmts := c.stmts ++ fixupList i a } with hc'
  have hshape := ensureLabels_create g i a hbnd
  have hclauses : (ensureLabels g i a).clauses = a.clauses ++ [c'] := by
    rw [hshape]
    simp only [committedOf, hcur]
  have hcurnew : ((ensureLabels g i a).cur).map Clause.num = some (c.num + 1) := by
    rw [hshape]
    simp [hcase]
  have hlen_e : (ensureLabels g i a).clauses.length = c.num + 1 := by
    rw [hclauses, List.length_append, hcnum]
    rfl
  have hget_e : (ensureLabels g i a).clauses.get? c.num = some c' := by
    rw [hclauses, List.get?_eq_getElem?, hcnum, List.getElem?_concat_length]
  have hprefix : (ensureLabels g i a).clauses <+: (buildFull g).clauses := by
    rcases Nat.lt_or_eq_of_le hle with hlt | heq
    · obtain ⟨op, hop⟩ : ∃ op, g.operations.get? i = some op := by
        rw [List.get?_eq_getElem?]
        exact ⟨g.operations[i], List.getElem?_eq_getElem hlt⟩
      have hstep : (runTo g (i + 1)).clauses = (ensureLabels g i a).clauses := by
        rw [runTo_succ]
        unfold stepAt
        rw [← ha, hop]
        dsimp only
        rw [writeOperation_clauses]
      rw [← hstep]
      exact buildFull_clauses_pfx g (i + 1) (Nat.succ_le_of_lt hlt)
    · simp only [buildFull]
      rw [← heq, ← ha]
      split
      · exact List.prefix_refl _
      · rw [writeFinalReturn_clauses]
  have hout1 : (buildFunctionBody g).get? c.num = some c' := by
    obtain ⟨t, ht⟩ := hprefix
    have hlt1 : c.num < (ensureLabels g i a).clauses.length := by
      rw [hlen_e]
      omega
    have hlt2 : c.num < (buildFull g).clauses.length := by
      rw [← ht, List.length_append]
      omega
    unfold buildFunctionBody outClauses
    rw [List.get?_eq_getElem?, List.getElem?_append_left hlt2, ← ht,
        List.getElem?_append_left hlt1, ← List.get?_eq_getElem?]
    exact hget_e
  have hsome : ((buildFull g).cur).isSome = true := by
    apply buildFull_cur_isSome g i hle
    rw [← ha, hcur]
    rfl
  obtain ⟨cf, hcf⟩ := Option.isSome_iff_exists.mp hsome
  have hlenfull : c.num + 1 ≤ (buildFull g).clauses.length := by
    obtain ⟨t, ht⟩ := hprefix
    rw [← ht, List.length_append, hlen_e]
    omega
  have hout2 : ∃ d, (buildFunctionBody g).get? (c.num + 1) = some d := by
    have hh : (buildFunctionBody g).length = (buildFull g).clauses.length + 1 := by
      unfold buildFunctionBody outClauses
      rw [hcf]
      simp
    have hlen : c.num + 1 < (buildFunctionBody g).length := by
      omega
    exact ⟨(buildFunctionBody g)[c.num + 1],
      by rw [List.get?_eq_getElem?]; exact List.getElem?_eq_getElem hlen⟩
  have hflags_an : (a.instructionWasAbrupt = false ∧ a.instructionWasCompletion = false) ↔
      flagsOf a = false := by
    unfold flagsOf
    rw [Bool.or_eq_false_iff]
  refine ⟨j, c', hj, hclauses, rfl, hcurnew, hout1, hout2, ?_⟩
  cases hF : flagsOf a
  · have hfix : fixupList i a = [Stmt.setLabel (c.num + 1)] := by
      unfold fixupList
      rw [if_pos ⟨(hflags_an.mpr hF).1, (hflags_an.mpr hF).2, h0⟩, hcase]
    constructor
    · intro _
      rw [hF] at hflag
      exact hflag.symm
    · intro _
      rw [hc']
      dsimp only
      rw [hfix, List.getLast?_concat]
  · have hfix : fixupList i a = [] := by
      unfold fixupList
      rw [if_neg]
      rintro ⟨h1, h2, -⟩
      have hcontra : flagsOf a = false := hflags_an.mp ⟨h1, h2⟩
      rw [hF] at hcontra
      exact Bool.noConfusion hcontra
    have hstmts : c'.stmts = c.stmts := by
      rw [hc']
      dsimp only
      rw [hfix, List.append_nil]
    constructor
    · intro hlast
      exfalso
      rw [hstmts] at hlast
      have hmem : Stmt.setLabel (c.num + 1) ∈ c.stmts := List.mem_of_mem_getLast? hlast
      exact curNoSetLabel_runTo g i c hcur (c.num + 1) hmem
    · intro hIA
      exfalso
      rw [hF, hIA] at hflag
      exact Bool.noConfusion hflag

/-- C2 witness input: `BrTrue`, then a plain statement, then a label mark at
index 2, then another statement — so case 1 opens at index 2 and case 0's
last written operation (the statement at index 1) is not abrupt. -/
def c2Gen : GenState :=
  exec [.defineLabelE, .emitE .BrTrue [.lbl 2, .node 5], .emitE .Statement [.node 6],
        .markLabelE 2, .emitE .Statement [.node 7]]

/-- C2 witness: `c2_fallthrough_fixup` applied to `c2Gen` at index 2 with
case 0 open; the fix-up `__state.label = 1;` is then forced to be the last
statement of case 0 because the last written operation is a Statement. -/
theorem c2_fallthrough_fixup_witness :
    ∃ j c', lastWritten c2Gen 2 = some j ∧
      (ensureLabels c2Gen 2 (runTo c2Gen 2)).clauses = (runTo c2Gen 2).clauses ++ [c'] ∧
      c'.num = 0 ∧
      ((ensureLabels c2Gen 2 (runTo c2Gen 2)).cur).map Clause.num = some 1 ∧
      (buildFunctionBody c2Gen).get? 0 = some c' ∧
      (∃ d, (buildFunctionBody c2Gen).get? 1 = some d) ∧
      (c'.stmts.getLast? = some (Stmt.setLabel 1) ↔
        isAbruptOrCompletion (opCodeAt c2Gen j) = false) :=
  c2_fallthrough_fixup c2Gen 2
    ⟨0, [Stmt.brTrue (some (Val.lbl 2)) (some (Val.node 5)), Stmt.user (some (Val.node 6))]⟩
    (by decide) (by decide) (by decide) (by decide)

/-! ### Block-event cursor tracking -/

/-- Folding `processEvent` over a list of events (the chunk the sync loop
consumes in one call). -/
def processList (g : GenState) (l : List BlockEvent) (a : AsmState) : AsmState :=
  l.foldl (fun a e => processEvent g e a) a

/-- The prefix of the event log processed before loop iteration `i`: all
events recorded strictly before operation index `i`. -/
def twLT (g : GenState) (i : Nat) : List BlockEvent :=
  g.blockEvents.takeWhile (fun e => decide (e.offset < i))

theorem writeStatement_blockIndex (s : Stmt) (a : AsmState) :
    (writeStatement s a).blockIndex = a.blockIndex := by
  unfold writeStatement
  cases hcur : a.cur
  · simp [hcur]
  · rfl

theorem processEvent_blockIndex (g : GenState) (e : BlockEvent) (a : AsmState) :
    (processEvent g e a).blockIndex = a.blockIndex + 1 := by
  unfold processEvent
  cases g.blockObjs.get? e.blockId
  · rfl
  · dsimp only
    split
    · rw [writeStatement_blockIndex]
    · rfl

theorem processList_blockIndex (g : GenState) :
    ∀ (l : List BlockEvent) (a : AsmState),
      (processList g l a).blockIndex = a.blockIndex + l.length := by
  intro l
  induction l with
  | nil => intro a; rfl
  | cons e rest ih =>
    intro a
    unfold processList at ih ⊢
    rw [List.foldl_cons, ih, processEvent_blockIndex, List.length_cons]
    omega

theorem syncFrom_eq_processList (g : GenState) (i : Nat) :
    ∀ (evs : List BlockEvent) (a : AsmState),
      syncFrom g i a evs = processList g (evs.takeWhile (fun e => decide (e.offset ≤ i))) a := by
  intro evs
  induction evs with
  | nil => intro a; rfl
  | cons e rest ih =>
    intro a
    unfold syncFrom
    cases hoff : decide (e.offset ≤ i)
    · rw [if_neg (by simpa using of_decide_eq_false hoff)]
      rw [@List.takeWhile_cons_of_neg _ (fun e => decide (e.offset ≤ i)) e rest (by simp [hoff])]
      rfl
    · rw [if_pos (of_decide_eq_true hoff)]
      rw [@List.takeWhile_cons_of_pos _ (fun e => decide (e.offset ≤ i)) e rest hoff]
      unfold processList
      rw [List.foldl_cons]
      exact ih (processEvent g e a)

/-- Splitting the processed prefix: the events recorded before index `i + 1`
are those recorded before `i` followed by the chunk of the remaining events
recorded at index `i` exactly. -/
theorem takeWhile_le_split (i : Nat) :
    ∀ (l : List BlockEvent),
      l.takeWhile (fun e => decide (e.offset ≤ i)) =
        l.takeWhile (fun e => decide (e.offset < i)) ++
          (l.drop (l.takeWhile (fun e => decide (e.offset < i))).length).takeWhile
            (fun e => decide (e.offset ≤ i)) := by
  intro l
  induction l with
  | nil => rfl
  | cons e rest ih =>
    by_cases hlt : e.offset < i
    · have hle : e.offset ≤ i := Nat.le_of_lt hlt
      rw [@List.takeWhile_cons_of_pos _ (fun e => decide (e.offset ≤ i)) e rest
            (decide_eq_true hle),
          @List.takeWhile_cons_of_pos _ (fun e => decide (e.offset < i)) e rest
            (decide_eq_true hlt),
          List.length_cons, List.drop_succ_cons, List.cons_append]
      exact congrArg (e :: ·) ih
    · rw [@List.takeWhile_cons_of_neg _ (fun e => decide (e.offset < i)) e rest
            (by simp only [decide_eq_true_eq]; exact hlt),
          List.length_nil, List.drop_zero, List.nil_append]

theorem blockSync_blockIndex_add (g : GenState) (i : Nat) (a : AsmState) :
    (blockSync g i a).blockIndex =
      a.blockIndex +
        ((g.blockEvents.drop a.blockIndex).takeWhile (fun e => decide (e.offset ≤ i))).length := by
  unfold blockSync
  rw [syncFrom_eq_processList, processList_blockIndex]

theorem ensureLabels_blockIndex (g : GenState) (i : Nat) (a : AsmState) :
    (ensureLabels g i a).blockIndex = a.blockIndex := by
  cases hb : (boundLabels g i).isEmpty
  · rw [ensureLabels_create g i a hb]
  · rw [ensureLabels_empty g i a hb]

theorem dispatch_blockIndex (c : OpCode) (args : List Val) (a : AsmState) :
    (dispatch c args a).blockIndex = a.blockIndex := by
  cases c <;> simp [dispatch, writeStatement_blockIndex]

theorem writeOperation_blockIndex (g : GenState) (i : Nat) (c : OpCode) (args : List Val)
    (a : AsmState) :
    (writeOperation g i c args a).blockIndex = (blockSync g i a).blockIndex := by
  simp only [writeOperation]
  split
  · rfl
  · rw [dispatch_blockIndex]

/-- The cursor after `i` loop iterations: exactly the events recorded before
operation index `i` have been consumed. -/
theorem blockIndex_runTo (g : GenState) :
    ∀ i, i ≤ g.operations.length → (runTo g i).blockIndex = (twLT g i).length := by
  intro i
  induction i with
  | zero =>
    intro _
    show (0 : Nat) = (twLT g 0).length
    unfold twLT
    cases g.blockEvents with
    | nil => rfl
    | cons e rest =>
      rw [@List.takeWhile_cons_of_neg _ (fun e => decide (e.offset < 0)) e rest (by simp)]
      rfl
  | succ i ih =>
    intro hle
    have hi : i < g.operations.length := Nat.lt_of_succ_le hle
    obtain ⟨op, hop⟩ : ∃ op, g.operations.get? i = some op := by
      rw [List.get?_eq_getElem?]
      exact ⟨g.operations[i], List.getElem?_eq_getElem hi⟩
    rw [runTo_succ]
    unfold stepAt
    rw [hop]
    dsimp only
    rw [writeOperation_blockIndex, blockSync_blockIndex_add, ensureLabels_blockIndex,
        ih (Nat.le_of_lt hi)]
    unfold twLT
    have hsucc : (fun e : BlockEvent => decide (e.offset < i + 1)) =
        (fun e : BlockEvent => decide (e.offset ≤ i)) := by
      funext e
      simp [Nat.lt_succ_iff]
    rw [hsucc, takeWhile_le_split i g.blockEvents, List.length_append]

/-! ### Counting protected-region registrations -/

/-- Accessing a position inside the processed part of a `takeWhile` prefix
gives the underlying list's element. -/
theorem takeWhile_get? {α : Type} (l : List α) (p : α → Bool) (m : Nat)
    (hm : m < (l.takeWhile p).length) : (l.takeWhile p).get? m = l.get? m := by
  obtain ⟨t, ht⟩ := List.takeWhile_prefix p (l := l)
  rw [List.get?_eq_getElem?, List.get?_eq_getElem?]
  conv_rhs => rw [← ht]
  rw [List.getElem?_append_left hm]

/-- A contiguous run of elements satisfying `p` bounds the `takeWhile`
length from below. -/
theorem takeWhile_length_ge {α : Type} (p : α → Bool) :
    ∀ (l : List α) (m : Nat), m ≤ l.length →
      (∀ j, j < m → ∀ x, l.get? j = some x → p x = true) →
      m ≤ (l.takeWhile p).length := by
  intro l
  induction l with
  | nil => intro m hm _; simpa using hm
  | cons x rest ih =>
    intro m hm h
    cases m with
    | zero => exact Nat.zero_le _
    | succ m' =>
      have hx : p x = true := h 0 (Nat.succ_pos m') x rfl
      rw [@List.takeWhile_cons_of_pos _ p x rest hx, List.length_cons]
      have := ih m' (by simpa using hm) (fun j hj y hy => h (j + 1) (by omega) y hy)
      omega

/-- Whether a block event is the Open of an exception block whose start
label is `s` (the event whose sync writes `__state.trys.push([s, ...])`). -/
def evMatches (g : GenState) (s : Int) (e : BlockEvent) : Prop :=
  e.action = BlockAction.Open ∧
    ∃ b, g.blockObjs.get? e.blockId = some b ∧
      b.kind = BlockKind.Exception ∧ b.startLabel = s

/-- Whether a statement is the protected-region registration for start
label `s`. -/
def tpStmt (s : Int) : Stmt → Bool
| .trysPush s' _ _ _ => s' == s
| _ => false

/-- Number of registrations for start label `s` in one clause. -/
def tpClause (s : Int) (c : Clause) : Nat := c.stmts.countP (tpStmt s)

/-- Total number of registrations for start label `s` in the output denoted
by an assembler state. -/
def tpCount (s : Int) (a : AsmState) : Nat := ((outClauses a).map (tpClause s)).sum

theorem tpCount_congr (s : Int) (a b : AsmState)
    (hc : b.clauses = a.clauses) (hcur : b.cur = a.cur) : tpCount s b = tpCount s a := by
  unfold tpCount outClauses
  rw [hc, hcur]

theorem tpCount_writeStatement (s : Int) (st : Stmt) (a : AsmState) :
    tpCount s (writeStatement st a) =
      tpCount s a + (if tpStmt s st = true ∧ (a.cur).isSome = true then 1 else 0) := by
  unfold writeStatement
  cases hcur : a.cur with
  | none =>
    simp [hcur]
  | some c =>
    dsimp only
    unfold tpCount outClauses
    simp only [hcur]
    rw [List.map_append, List.map_append, List.sum_append, List.sum_append]
    simp only [List.map_cons, List.map_nil, List.sum_cons, List.sum_nil]
    unfold tpClause
    rw [List.countP_append]
    cases htp : tpStmt s st
    · simp [List.countP_cons, htp]
    · simp [List.countP_cons, htp]
      omega

theorem tpCount_processEvent_nonmatch (g : GenState) (s : Int) (e : BlockEvent) (a : AsmState)
    (h : ¬ evMatches g s e) : tpCount s (processEvent g e a) = tpCount s a := by
  unfold processEvent
  cases hobj : g.blockObjs.get? e.blockId with
  | none => exact tpCount_congr s a _ rfl rfl
  | some b =>
    dsimp only
    split
    · rename_i hcond
      rw [tpCount_writeStatement]
      have hne : b.startLabel ≠ s := by
        intro heq
        exact h ⟨hcond.1, b, hobj, hcond.2, heq⟩
      have htp : tpStmt s (Stmt.trysPush b.startLabel (posSlot b.catchLabel)
          (posSlot b.finallyLabel) b.endLabel) = false := by
        unfold tpStmt
        simp [hne]
      rw [htp]
      simp
      exact tpCount_congr s a _ rfl rfl
    · exact tpCount_congr s a _ rfl rfl

theorem tpCount_processEvent_match (g : GenState) (s : Int) (e : BlockEvent) (a : AsmState)
    (h : evMatches g s e) (hc : (a.cur).isSome = true) :
    tpCount s (processEvent g e a) = tpCount s a + 1 := by
  obtain ⟨hopen, b, hobj, hkind, hs⟩ := h
  unfold processEvent
  rw [hobj]
  dsimp only
  rw [if_pos ⟨hopen, hkind⟩, tpCount_writeStatement]
  have htp : tpStmt s (Stmt.trysPush b.startLabel (posSlot b.catchLabel)
      (posSlot b.finallyLabel) b.endLabel) = true := by
    unfold tpStmt
    simp [hs]
  rw [htp]
  have : tpCount s { a with blockIndex := a.blockIndex + 1 } = tpCount s a :=
    tpCount_congr s a _ rfl rfl
  rw [this]
  simp [hc]

theorem outClauses_none (a : AsmState) (h : a.cur = none) : outClauses a = a.clauses := by
  unfold outClauses
  rw [h]
  exact List.append_nil _

theorem outClauses_some (a : AsmState) (c : Clause) (h : a.cur = some c) :
    outClauses a = a.clauses ++ [c] := by
  unfold outClauses
  rw [h]

theorem committedOf_none (i : Nat) (a : AsmState) (h : a.cur = none) :
    committedOf i a = a.clauses := by
  unfold committedOf
  rw [h]

theorem committedOf_some (i : Nat) (a : AsmState) (c : Clause) (h : a.cur = some c) :
    committedOf i a = a.clauses ++ [{ c with stmts := c.stmts ++ fixupList i a }] := by
  unfold committedOf
  rw [h]

theorem tpCount_dispatch (s : Int) (c : OpCode) (args : List Val) (a : AsmState) :
    tpCount s (dispatch c args a) = tpCount s a := by
  cases c <;>
    (unfold dispatch
     rw [tpCount_writeStatement]
     simp [tpStmt]
     try exact tpCount_congr s a _ rfl rfl)

theorem tpCount_ensureLabels (g : GenState) (s : Int) (i : Nat) (a : AsmState) :
    tpCount s (ensureLabels g i a) = tpCount s a := by
  have hseed : tpClause s ⟨caseCount a, seedOf g a⟩ = 0 := by
    unfold tpClause seedOf
    split
    · rfl
    · rfl
  cases hb : (boundLabels g i).isEmpty
  · unfold tpCount
    rw [ensureLabels_create g i a hb, outClauses_some _ ⟨caseCount a, seedOf g a⟩ rfl]
    dsimp only
    cases hcur : a.cur with
    | none =>
      rw [committedOf_none i a hcur, outClauses_none a hcur]
      simp only [List.map_append, List.sum_append, List.map_cons, List.map_nil,
                 List.sum_cons, List.sum_nil, hseed]
      omega
    | some c =>
      rw [committedOf_some i a c hcur, outClauses_some a c hcur]
      simp only [List.map_append, List.sum_append, List.map_cons, List.map_nil,
                 List.sum_cons, List.sum_nil, hseed]
      have hfix : tpClause s { c with stmts := c.stmts ++ fixupList i a } = tpClause s c := by
        unfold tpClause fixupList
        dsimp only
        rw [List.countP_append]
        split
        · rfl
        · rfl
      rw [hfix]
      omega
  · rw [ensureLabels_empty g i a hb]

theorem tpCount_writeFinalReturn (s : Int) (a : AsmState) :
    tpCount s (writeFinalReturn a) = tpCount s a := by
  unfold writeFinalReturn
  rw [tpCount_writeStatement]
  simp [tpStmt]
  exact tpCount_congr s a _ rfl rfl

theorem processList_cur_isSome (g : GenState) :
    ∀ (l : List BlockEvent) (a : AsmState), (a.cur).isSome = true →
      ((processList g l a).cur).isSome = true := by
  intro l
  induction l with
  | nil => intro a h; exact h
  | cons e rest ih =>
    intro a h
    unfold processList
    rw [List.foldl_cons]
    exact ih _ (cur_isSome_of_map_num (processEvent_cur_num g e a) h)

theorem tpCount_processList_nonmatch (g : GenState) (s : Int) :
    ∀ (l : List BlockEvent) (a : AsmState), (∀ e ∈ l, ¬ evMatches g s e) →
      tpCount s (processList g l a) = tpCount s a := by
  intro l
  induction l with
  | nil => intro a _; rfl
  | cons e rest ih =>
    intro a h
    unfold processList
    rw [List.foldl_cons]
    have h1 := ih (processEvent g e a) (fun x hx => h x (List.mem_cons_of_mem e hx))
    unfold processList at h1
    rw [h1, tpCount_processEvent_nonmatch g s e a (h e (List.mem_cons_self e rest))]

theorem processList_append (g : GenState) (l1 l2 : List BlockEvent) (a : AsmState) :
    processList g (l1 ++ l2) a = processList g l2 (processList g l1 a) := by
  unfold processList
  rw [List.foldl_append]

theorem tpCount_processList_single (g : GenState) (s : Int) (l1 l2 : List BlockEvent)
    (e : BlockEvent) (a : AsmState)
    (h1 : ∀ x ∈ l1, ¬ evMatches g s x) (h2 : ∀ x ∈ l2, ¬ evMatches g s x)
    (he : evMatches g s e) (ha : (a.cur).isSome = true) :
    tpCount s (processList g (l1 ++ e :: l2) a) = tpCount s a + 1 := by
  rw [show l1 ++ e :: l2 = (l1 ++ [e]) ++ l2 by simp, processList_append, processList_append]
  rw [tpCount_processList_nonmatch g s l2 _ h2]
  rw [show processList g [e] (processList g l1 a) = processEvent g e (processList g l1 a) from rfl]
  rw [tpCount_processEvent_match g s e _ he (processList_cur_isSome g l1 a ha),
      tpCount_processList_nonmatch g s l1 a h1]

/-! ### Tracking one registration statement through the assembler -/

/-- Some clause of the denoted output is numbered `N` and contains the
statement `st`. -/
def hasClauseWith (a : AsmState) (N : Nat) (st : Stmt) : Prop :=
  ∃ cl ∈ outClauses a, cl.num = N ∧ st ∈ cl.stmts

theorem hasClauseWith_congr (a b : AsmState) (N : Nat) (st : Stmt)
    (h : outClauses b = outClauses a) (ha : hasClauseWith a N st) : hasClauseWith b N st := by
  unfold hasClauseWith at ha ⊢
  rw [h]
  exact ha

theorem hasClauseWith_writeStatement (st' st : Stmt) (a : AsmState) (N : Nat)
    (h : hasClauseWith a N st) : hasClauseWith (writeStatement st' a) N st := by
  obtain ⟨cl, hmem, hnum, hin⟩ := h
  cases hcur : a.cur with
  | none =>
    have hws : writeStatement st' a = a := by
      unfold writeStatement
      rw [hcur]
    rw [hws]
    exact ⟨cl, hmem, hnum, hin⟩
  | some c =>
    have hws : writeStatement st' a =
        { a with cur := some { c with stmts := c.stmts ++ [st'] } } := by
      unfold writeStatement
      rw [hcur]
    rw [hws]
    rw [outClauses_some a c hcur] at hmem
    rcases List.mem_append.mp hmem with h1 | h1
    · refine ⟨cl, ?_, hnum, hin⟩
      rw [outClauses_some _ { c with stmts := c.stmts ++ [st'] } rfl]
      exact List.mem_append.mpr (Or.inl h1)
    · have hcl : cl = c := List.mem_singleton.mp h1
      refine ⟨{ c with stmts := c.stmts ++ [st'] }, ?_, ?_, ?_⟩
      · rw [outClauses_some _ _ rfl]
        exact List.mem_append.mpr (Or.inr (List.mem_singleton.mpr rfl))
      · show c.num = N
        rw [← hcl]
        exact hnum
      · exact List.mem_append.mpr (Or.inl (by rw [← hcl]; exact hin))

/-- Writing a statement when a clause is open puts it into that clause. -/
theorem hasClauseWith_writeStatement_self (st : Stmt) (a : AsmState) (c : Clause)
    (hc : a.cur = some c) : hasClauseWith (writeStatement st a) c.num st := by
  have hws : writeStatement st a =
      { a with cur := some { c with stmts := c.stmts ++ [st] } } := by
    unfold writeStatement
    rw [hc]
  rw [hws]
  refine ⟨{ c with stmts := c.stmts ++ [st] }, ?_, rfl, ?_⟩
  · rw [outClauses_some _ _ rfl]
    exact List.mem_append.mpr (Or.inr (List.mem_singleton.mpr rfl))
  · exact List.mem_append.mpr (Or.inr (List.mem_singleton.mpr rfl))

theorem hasClauseWith_processEvent (g : GenState) (e : BlockEvent) (a : AsmState) (N : Nat)
    (st : Stmt) (h : hasClauseWith a N st) : hasClauseWith (processEvent g e a) N st := by
  unfold processEvent
  cases g.blockObjs.get? e.blockId
  · exact hasClauseWith_congr a _ N st rfl h
  · dsimp only
    split
    · exact hasClauseWith_writeStatement _ st _ N (hasClauseWith_congr a _ N st rfl h)
    · exact hasClauseWith_congr a _ N st rfl h

theorem hasClauseWith_processList (g : GenState) (N : Nat) (st : Stmt) :
    ∀ (l : List BlockEvent) (a : AsmState),
      hasClauseWith a N st → hasClauseWith (processList g l a) N st := by
  intro l
  induction l with
  | nil => intro a h; exact h
  | cons e rest ih =>
    intro a h
    unfold processList
    rw [List.foldl_cons]
    exact ih _ (hasClauseWith_processEvent g e a N st h)

theorem hasClauseWith_dispatch (c : OpCode) (args : List Val) (a : AsmState) (N : Nat)
    (st : Stmt) (h : hasClauseWith a N st) : hasClauseWith (dispatch c args a) N st := by
  cases c <;>
    exact hasClauseWith_writeStatement _ st _ N (hasClauseWith_congr a _ N st rfl h)

theorem hasClauseWith_writeOperation (g : GenState) (i : Nat) (c : OpCode) (args : List Val)
    (a : AsmState) (N : Nat) (st : Stmt) (h : hasClauseWith a N st) :
    hasClauseWith (writeOperation g i c args a) N st := by
  have hsync : hasClauseWith (blockSync g i a) N st := by
    unfold blockSync
    rw [syncFrom_eq_processList]
    exact hasClauseWith_processList g N st _ a h
  simp only [writeOperation]
  split
  · exact hsync
  · exact hasClauseWith_dispatch c args _ N st (hasClauseWith_congr _ _ N st rfl hsync)

theorem hasClauseWith_ensureLabels (g : GenState) (i : Nat) (a : AsmState) (N : Nat)
    (st : Stmt) (h : hasClauseWith a N st) : hasClauseWith (ensureLabels g i a) N st := by
  cases hb : (boundLabels g i).isEmpty
  · rw [ensureLabels_create g i a hb]
    obtain ⟨cl, hmem, hnum, hin⟩ := h
    cases hcur : a.cur with
    | none =>
      rw [outClauses_none a hcur] at hmem
      refine ⟨cl, ?_, hnum, hin⟩
      rw [outClauses_some _ ⟨caseCount a, seedOf g a⟩ rfl]
      dsimp only
      rw [committedOf_none i a hcur]
      exact List.mem_append.mpr (Or.inl hmem)
    | some c =>
      rw [outClauses_some a c hcur] at hmem
      rcases List.mem_append.mp hmem with h1 | h1
      · refine ⟨cl, ?_, hnum, hin⟩
        rw [outClauses_some _ ⟨caseCount a, seedOf g a⟩ rfl]
        dsimp only
        rw [committedOf_some i a c hcur]
        exact List.mem_append.mpr (Or.inl (List.mem_append.mpr (Or.inl h1)))
      · have hcl : cl = c := List.mem_singleton.mp h1
        refine ⟨{ c with stmts := c.stmts ++ fixupList i a }, ?_, ?_, ?_⟩
        · rw [outClauses_some _ ⟨caseCount a, seedOf g a⟩ rfl]
          dsimp only
          rw [committedOf_some i a c hcur]
          exact List.mem_append.mpr
            (Or.inl (List.mem_append.mpr (Or.inr (List.mem_singleton.mpr rfl))))
        · show c.num = N
          rw [← hcl]
          exact hnum
        · exact List.mem_append.mpr (Or.inl (by rw [← hcl]; exact hin))
  · rw [ensureLabels_empty g i a hb]
    exact h

theorem hasClauseWith_stepAt (g : GenState) (a : AsmState) (i : Nat) (N : Nat) (st : Stmt)
    (h : hasClauseWith a N st) : hasClauseWith (stepAt g a i) N st := by
  unfold stepAt
  cases g.operations.get? i
  · exact h
  · exact hasClauseWith_writeOperation g i _ _ _ N st (hasClauseWith_ensureLabels g i a N st h)

theorem hasClauseWith_runTo_mono (g : GenState) (i i' : Nat) (hle : i ≤ i') (N : Nat)
    (st : Stmt) (h : hasClauseWith (runTo g i) N st) : hasClauseWith (runTo g i') N st := by
  induction i' with
  | zero => rw [Nat.le_zero.mp hle] at h; exact h
  | succ i' ih =>
    rcases Nat.lt_or_eq_of_le hle with h' | h'
    · rw [runTo_succ]
      exact hasClauseWith_stepAt g _ i' N st (ih (Nat.lt_succ_iff.mp h'))
    · rw [← h']
      exact h

theorem hasClauseWith_buildFull (g : GenState) (i : Nat) (hle : i ≤ g.operations.length)
    (N : Nat) (st : Stmt) (h : hasClauseWith (runTo g i) N st) :
    hasClauseWith (buildFull g) N st := by
  simp only [buildFull]
  have h1 := hasClauseWith_runTo_mono g i g.operations.length hle N st h
  have h2 := hasClauseWith_ensureLabels g g.operations.length _ N st h1
  split
  · exact h2
  · exact hasClauseWith_writeStatement _ st _ N (hasClauseWith_congr _ _ N st rfl h2)

theorem processList_cur_num (g : GenState) :
    ∀ (l : List BlockEvent) (a : AsmState),
      ((processList g l a).cur).map Clause.num = (a.cur).map Clause.num := by
  intro l
  induction l with
  | nil => intro a; rfl
  | cons e rest ih =>
    intro a
    unfold processList
    rw [List.foldl_cons]
    have := ih (processEvent g e a)
    unfold processList at this
    rw [this, processEvent_cur_num]

/-! ### Resolving labels to case numbers -/

theorem mem_boundLabels (g : GenState) (i : Nat) (l : Nat)
    (h : g.labels.get? l = some (some (i : Int))) : l ∈ boundLabels g i := by
  have hlt : l < g.labels.length := by
    by_contra hc
    rw [List.get?_eq_getElem?, List.getElem?_eq_none (Nat.le_of_not_lt hc)] at h
    exact Option.noConfusion h
  unfold boundLabels
  rw [List.mem_filter]
  exact ⟨List.mem_range.mpr hlt, by rw [decide_eq_true_eq]; exact h⟩

theorem not_mem_boundLabels (g : GenState) (i o : Nat) (l : Nat) (hne : o ≠ i)
    (h : g.labels.get? l = some (some (o : Int))) : l ∉ boundLabels g i := by
  intro hmem
  unfold boundLabels at hmem
  rw [List.mem_filter] at hmem
  have h2 := hmem.2
  rw [decide_eq_true_eq] at h2
  rw [h] at h2
  have h3 : (o : Int) = (i : Int) := Option.some.inj (Option.some.inj h2)
  exact hne (by exact_mod_cast h3)

theorem boundLabels_nodup (g : GenState) (i : Nat) : (boundLabels g i).Nodup :=
  List.Nodup.filter _ (List.nodup_range _)

theorem boundLabels_isEmpty_false (g : GenState) (i : Nat) (l : Nat)
    (h : l ∈ boundLabels g i) : (boundLabels g i).isEmpty = false := by
  cases hb : (boundLabels g i).isEmpty
  · rfl
  · exfalso
    rw [List.isEmpty_iff.mp hb] at h
    cases h

theorem foldl_sparseSet_get_not_mem (v : Nat) (l : Nat) :
    ∀ (xs : List Nat) (ln : List (Option Nat)) (w : Option Nat),
      ln.get? l = some w → l ∉ xs →
      (xs.foldl (fun acc x => sparseSet acc x v) ln).get? l = some w := by
  intro xs
  induction xs with
  | nil => intro ln w hw _; exact hw
  | cons x rest ih =>
    intro ln w hw hnot
    rw [List.foldl_cons]
    refine ih _ w ?_ (fun hm => hnot (List.mem_cons_of_mem x hm))
    exact sparseSet_get_ne ln x v l
      (fun he => hnot (he ▸ List.mem_cons_self x rest)) w hw

theorem foldl_sparseSet_get_mem (v : Nat) :
    ∀ (xs : List Nat), xs.Nodup → ∀ l ∈ xs, ∀ (ln : List (Option Nat)),
      (xs.foldl (fun acc x => sparseSet acc x v) ln).get? l = some (some v) := by
  intro xs
  induction xs with
  | nil => intro _ l hl; cases hl
  | cons x rest ih =>
    intro hnd l hl ln
    rw [List.foldl_cons]
    rcases List.mem_cons.mp hl with h1 | h1
    · subst h1
      exact foldl_sparseSet_get_not_mem v l rest _ _ (sparseSet_get_self ln l v)
        (List.nodup_cons.mp hnd).1
    · exact ih (List.nodup_cons.mp hnd).2 l h1 _

theorem ensureLabels_labelNumbers_set (g : GenState) (i : Nat) (a : AsmState) (l : Nat)
    (hmem : l ∈ boundLabels g i) :
    (ensureLabels g i a).labelNumbers.get? l = some (some (caseCount a)) := by
  rw [ensureLabels_create g i a (boundLabels_isEmpty_false g i l hmem)]
  exact foldl_sparseSet_get_mem (caseCount a) _ (boundLabels_nodup g i) l hmem a.labelNumbers

theorem ensureLabels_labelNumbers_preserve (g : GenState) (i : Nat) (a : AsmState) (l : Nat)
    (w : Option Nat) (hnot : l ∉ boundLabels g i) (hw : a.labelNumbers.get? l = some w) :
    (ensureLabels g i a).labelNumbers.get? l = some w := by
  cases hb : (boundLabels g i).isEmpty
  · rw [ensureLabels_create g i a hb]
    exact foldl_sparseSet_get_not_mem _ l _ _ _ hw hnot
  · rw [ensureLabels_empty g i a hb]
    exact hw

theorem stepAt_labelNumbers_preserve (g : GenState) (a : AsmState) (i : Nat) (l : Nat)
    (w : Option Nat) (hnot : l ∉ boundLabels g i) (hw : a.labelNumbers.get? l = some w) :
    (stepAt g a i).labelNumbers.get? l = some w := by
  unfold stepAt
  cases g.operations.get? i
  · exact hw
  · dsimp only
    rw [writeOperation_labelNumbers]
    exact ensureLabels_labelNumbers_preserve g i a l w hnot hw

/-! ### Position of an event relative to the processed prefix -/

theorem twLT_succ_len (g : GenState) (i : Nat) :
    (twLT g (i + 1)).length =
      (twLT g i).length +
        ((g.blockEvents.drop (twLT g i).length).takeWhile
          (fun e => decide (e.offset ≤ i))).length := by
  unfold twLT
  have hsucc : (fun e : BlockEvent => decide (e.offset < i + 1)) =
      (fun e : BlockEvent => decide (e.offset ≤ i)) := by
    funext e
    simp [Nat.lt_succ_iff]
  rw [hsucc, takeWhile_le_split i g.blockEvents, List.length_append]

theorem twLT_le_of (g : GenState) (k : Nat) (ev : BlockEvent)
    (hk : g.blockEvents.get? k = some ev) (i : Nat) (hio : i ≤ ev.offset) :
    (twLT g i).length ≤ k := by
  by_contra hc
  have hklt : k < (twLT g i).length := Nat.lt_of_not_le hc
  have hget : (twLT g i).get? k = some ev := by
    unfold twLT
    rw [takeWhile_get? _ _ k hklt]
    exact hk
  have hmem : ev ∈ twLT g i := List.mem_iff_get?.mpr ⟨k, hget⟩
  have hpred := List.mem_takeWhile_imp hmem
  rw [decide_eq_true_eq] at hpred
  omega

theorem twLT_ge_of (g : GenState) (k : Nat) (ev : BlockEvent)
    (hk : g.blockEvents.get? k = some ev)
    (hbefore : ∀ m, m ≤ k → ∀ e, g.blockEvents.get? m = some e → e.offset ≤ ev.offset)
    (i : Nat) (hio : ev.offset < i) : k + 1 ≤ (twLT g i).length := by
  have hklt : k < g.blockEvents.length := by
    by_contra hc
    rw [List.get?_eq_getElem?, List.getElem?_eq_none (Nat.le_of_not_lt hc)] at hk
    exact Option.noConfusion hk
  apply takeWhile_length_ge
  · omega
  · intro j hj x hx
    have := hbefore j (by omega) x hx
    rw [decide_eq_true_eq]
    omega

/-- Membership in the sync chunk, converted to an index into the event log. -/
theorem chunk_mem_index (g : GenState) (i BI : Nat) (x : BlockEvent)
    (hx : x ∈ (g.blockEvents.drop BI).takeWhile (fun e => decide (e.offset ≤ i))) :
    ∃ m, g.blockEvents.get? (BI + m) = some x ∧
      m < ((g.blockEvents.drop BI).takeWhile (fun e => decide (e.offset ≤ i))).length := by
  obtain ⟨m, hm⟩ := List.mem_iff_get?.mp hx
  have hmlt : m < ((g.blockEvents.drop BI).takeWhile (fun e => decide (e.offset ≤ i))).length := by
    by_contra hc
    rw [List.get?_eq_getElem?, List.getElem?_eq_none (Nat.le_of_not_lt hc)] at hm
    exact Option.noConfusion hm
  refine ⟨m, ?_, hmlt⟩
  rw [takeWhile_get? _ _ m hmlt] at hm
  rw [List.get?_eq_getElem?, List.getElem?_drop] at hm
  rw [List.get?_eq_getElem?]
  exact hm

theorem tpCount_writeOperation (g : GenState) (s : Int) (i : Nat) (c : OpCode)
    (args : List Val) (a : AsmState) :
    tpCount s (writeOperation g i c args a) = tpCount s (blockSync g i a) := by
  simp only [writeOperation]
  split
  · rfl
  · rw [tpCount_dispatch]
    exact tpCount_congr s _ _ rfl rfl

theorem hasClauseWith_writeOperation_of_sync (g : GenState) (i : Nat) (c : OpCode)
    (args : List Val) (a : AsmState) (N : Nat) (st : Stmt)
    (h : hasClauseWith (blockSync g i a) N st) :
    hasClauseWith (writeOperation g i c args a) N st := by
  simp only [writeOperation]
  split
  · exact h
  · exact hasClauseWith_dispatch c args _ N st (hasClauseWith_congr _ _ N st rfl h)

/-! ### Loop iterations other than the registration point do not register -/

theorem tpCount_stepAt_nonmatch (g : GenState) (s : Int) (k : Nat) (ev : BlockEvent)
    (hk : g.blockEvents.get? k = some ev)
    (hbefore : ∀ m, m ≤ k → ∀ e, g.blockEvents.get? m = some e → e.offset ≤ ev.offset)
    (huniq : ∀ m e, g.blockEvents.get? m = some e → m ≠ k → ¬ evMatches g s e)
    (i : Nat) (hi : i < g.operations.length) (hne : i ≠ ev.offset) :
    tpCount s (runTo g (i + 1)) = tpCount s (runTo g i) := by
  obtain ⟨op, hop⟩ : ∃ op, g.operations.get? i = some op := by
    rw [List.get?_eq_getElem?]
    exact ⟨g.operations[i], List.getElem?_eq_getElem hi⟩
  rw [runTo_succ]
  unfold stepAt
  rw [hop]
  dsimp only
  rw [tpCount_writeOperation]
  have hBI : (ensureLabels g i (runTo g i)).blockIndex = (twLT g i).length := by
    rw [ensureLabels_blockIndex, blockIndex_runTo g i (Nat.le_of_lt hi)]
  unfold blockSync
  rw [syncFrom_eq_processList, hBI]
  rw [tpCount_processList_nonmatch]
  · rw [tpCount_ensureLabels]
  · intro x hx
    obtain ⟨m, hxm, hmlt⟩ := chunk_mem_index g i (twLT g i).length x hx
    apply huniq _ x hxm
    rcases Nat.lt_or_ge i ev.offset with hlt | hge
    · have h1 : (twLT g (i + 1)).length ≤ k := twLT_le_of g k ev hk (i + 1) hlt
      have h2 := twLT_succ_len g i
      omega
    · have hgt : ev.offset < i := by omega
      have h1 := twLT_ge_of g k ev hk hbefore i hgt
      omega

/-! ### The loop iteration at the registration point -/

theorem c1_step_o (g : GenState) (k : Nat) (ev : BlockEvent) (b : BlockScope)
    (hk : g.blockEvents.get? k = some ev)
    (hopen : ev.action = BlockAction.Open)
    (hblock : g.blockObjs.get? ev.blockId = some b)
    (hkind : b.kind = BlockKind.Exception)
    (hoff : ev.offset < g.operations.length)
    (hbefore : ∀ m, m ≤ k → ∀ e, g.blockEvents.get? m = some e → e.offset ≤ ev.offset)
    (hstart : g.labels.get? b.startLabel.toNat = some (some (ev.offset : Int)))
    (huniq : ∀ m e, g.blockEvents.get? m = some e → m ≠ k → ¬ evMatches g b.startLabel e) :
    tpCount b.startLabel (runTo g (ev.offset + 1)) =
      tpCount b.startLabel (runTo g ev.offset) + 1 ∧
    hasClauseWith (runTo g (ev.offset + 1)) (caseCount (runTo g ev.offset))
      (Stmt.trysPush b.startLabel (posSlot b.catchLabel) (posSlot b.finallyLabel) b.endLabel) ∧
    (runTo g (ev.offset + 1)).labelNumbers.get? b.startLabel.toNat =
      some (some (caseCount (runTo g ev.offset))) := by
  obtain ⟨op, hop⟩ : ∃ op, g.operations.get? ev.offset = some op := by
    rw [List.get?_eq_getElem?]
    exact ⟨g.operations[ev.offset], List.getElem?_eq_getElem hoff⟩
  have hklt : k < g.blockEvents.length := by
    by_contra hc
    rw [List.get?_eq_getElem?, List.getElem?_eq_none (Nat.le_of_not_lt hc)] at hk
    exact Option.noConfusion hk
  have hmem : b.startLabel.toNat ∈ boundLabels g ev.offset := mem_boundLabels _ _ _ hstart
  have hbne : (boundLabels g ev.offset).isEmpty = false :=
    boundLabels_isEmpty_false _ _ _ hmem
  have hA1cur : (ensureLabels g ev.offset (runTo g ev.offset)).cur =
      some ⟨caseCount (runTo g ev.offset), seedOf g (runTo g ev.offset)⟩ := by
    rw [ensureLabels_create g ev.offset (runTo g ev.offset) hbne]
  have hA1some : ((ensureLabels g ev.offset (runTo g ev.offset)).cur).isSome = true := by
    rw [hA1cur]
    rfl
  have hBI : (ensureLabels g ev.offset (runTo g ev.offset)).blockIndex =
      (twLT g ev.offset).length := by
    rw [ensureLabels_blockIndex, blockIndex_runTo g ev.offset (Nat.le_of_lt hoff)]
  have hle_k : (twLT g ev.offset).length ≤ k := twLT_le_of g k ev hk ev.offset le_rfl
  have hm01 : k - (twLT g ev.offset).length + 1 ≤
      (g.blockEvents.drop (twLT g ev.offset).length).length := by
    rw [List.length_drop]
    omega
  have hchunk : k - (twLT g ev.offset).length + 1 ≤
      ((g.blockEvents.drop (twLT g ev.offset).length).takeWhile
        (fun e => decide (e.offset ≤ ev.offset))).length := by
    apply takeWhile_length_ge _ _ _ hm01
    intro j hj x hx
    rw [List.get?_eq_getElem?, List.getElem?_drop, ← List.get?_eq_getElem?] at hx
    have := hbefore ((twLT g ev.offset).length + j) (by omega) x hx
    rw [decide_eq_true_eq]
    omega
  have hm0lt : k - (twLT g ev.offset).length <
      ((g.blockEvents.drop (twLT g ev.offset).length).takeWhile
        (fun e => decide (e.offset ≤ ev.offset))).length := by
    omega
  have hget : ((g.blockEvents.drop (twLT g ev.offset).length).takeWhile
      (fun e => decide (e.offset ≤ ev.offset))).get? (k - (twLT g ev.offset).length) =
      some ev := by
    rw [takeWhile_get? _ _ _ hm0lt, List.get?_eq_getElem?, List.getElem?_drop,
        show (twLT g ev.offset).length + (k - (twLT g ev.offset).length) = k by omega,
        ← List.get?_eq_getElem?]
    exact hk
  have hsplit : ((g.blockEvents.drop (twLT g ev.offset).length).takeWhile
      (fun e => decide (e.offset ≤ ev.offset))) =
      ((g.blockEvents.drop (twLT g ev.offset).length).takeWhile
        (fun e => decide (e.offset ≤ ev.offset))).take (k - (twLT g ev.offset).length) ++
      ev :: ((g.blockEvents.drop (twLT g ev.offset).length).takeWhile
        (fun e => decide (e.offset ≤ ev.offset))).drop (k - (twLT g ev.offset).length + 1) := by
    have h2 : ((g.blockEvents.drop (twLT g ev.offset).length).takeWhile
        (fun e => decide (e.offset ≤ ev.offset))).drop (k - (twLT g ev.offset).length) =
        ev :: ((g.blockEvents.drop (twLT g ev.offset).length).takeWhile
          (fun e => decide (e.offset ≤ ev.offset))).drop (k - (twLT g ev.offset).length + 1) := by
      rw [List.drop_eq_getElem_cons hm0lt]
      have h3 := hget
      rw [List.get?_eq_getElem?, List.getElem?_eq_getElem hm0lt] at h3
      rw [Option.some.inj h3]
    conv_lhs => rw [← List.take_append_drop (k - (twLT g ev.offset).length)
      ((g.blockEvents.drop (twLT g ev.offset).length).takeWhile
        (fun e => decide (e.offset ≤ ev.offset)))]
    rw [h2]
  have htake_nm : ∀ x ∈ ((g.blockEvents.drop (twLT g ev.offset).length).takeWhile
      (fun e => decide (e.offset ≤ ev.offset))).take (k - (twLT g ev.offset).length),
      ¬ evMatches g b.startLabel x := by
    intro x hx
    obtain ⟨j, hj⟩ := List.mem_iff_get?.mp hx
    have hjlt : j < k - (twLT g ev.offset).length := by
      by_contra hc
      rw [List.get?_eq_getElem?, List.getElem?_take, if_neg (Nat.not_lt_of_le
        (Nat.le_of_not_lt (fun hcc => hc hcc)))] at hj
      exact Option.noConfusion hj
    have hcj : ((g.blockEvents.drop (twLT g ev.offset).length).takeWhile
        (fun e => decide (e.offset ≤ ev.offset))).get? j = some x := by
      rw [List.get?_eq_getElem?] at hj ⊢
      rw [List.getElem?_take, if_pos hjlt] at hj
      exact hj
    have hidx : g.blockEvents.get? ((twLT g ev.offset).length + j) = some x := by
      rw [takeWhile_get? _ _ j (by omega)] at hcj
      rw [List.get?_eq_getElem?, List.getElem?_drop] at hcj
      rw [List.get?_eq_getElem?]
      exact hcj
    exact huniq _ x hidx (by omega)
  have hdrop_nm : ∀ x ∈ ((g.blockEvents.drop (twLT g ev.offset).length).takeWhile
      (fun e => decide (e.offset ≤ ev.offset))).drop (k - (twLT g ev.offset).length + 1),
      ¬ evMatches g b.startLabel x := by
    intro x hx
    obtain ⟨j, hj⟩ := List.mem_iff_get?.mp hx
    have hcj : ((g.blockEvents.drop (twLT g ev.offset).length).takeWhile
        (fun e => decide (e.offset ≤ ev.offset))).get? (k - (twLT g ev.offset).length + 1 + j) =
        some x := by
      rw [List.get?_eq_getElem?] at hj ⊢
      rw [List.getElem?_drop] at hj
      exact hj
    have hlt2 : k - (twLT g ev.offset).length + 1 + j <
        ((g.blockEvents.drop (twLT g ev.offset).length).takeWhile
          (fun e => decide (e.offset ≤ ev.offset))).length := by
      by_contra hc
      rw [List.get?_eq_getElem?, List.getElem?_eq_none (Nat.le_of_not_lt hc)] at hcj
      exact Option.noConfusion hcj
    have hidx : g.blockEvents.get?
        ((twLT g ev.offset).length + (k - (twLT g ev.offset).length + 1 + j)) = some x := by
      rw [takeWhile_get? _ _ _ hlt2] at hcj
      rw [List.get?_eq_getElem?, List.getElem?_drop] at hcj
      rw [List.get?_eq_getElem?]
      exact hcj
    exact huniq _ x hidx (by omega)
  have hmatch : evMatches g b.startLabel ev := ⟨hopen, b, hblock, hkind, rfl⟩
  rw [runTo_succ]
  unfold stepAt
  rw [hop]
  dsimp only
  refine ⟨?_, ?_, ?_⟩
  · rw [tpCount_writeOperation]
    unfold blockSync
    rw [syncFrom_eq_processList, hBI, hsplit,
        tpCount_processList_single g b.startLabel _ _ ev _ htake_nm hdrop_nm hmatch hA1some,
        tpCount_ensureLabels]
  · apply hasClauseWith_writeOperation_of_sync
    unfold blockSync
    rw [syncFrom_eq_processList, hBI, hsplit]
    rw [show ∀ (l1 l2 : List BlockEvent), l1 ++ ev :: l2 = (l1 ++ [ev]) ++ l2 by
          intro l1 l2; simp]
    rw [processList_append, processList_append]
    apply hasClauseWith_processList
    have hXnum : ((processList g
        (((g.blockEvents.drop (twLT g ev.offset).length).takeWhile
          (fun e => decide (e.offset ≤ ev.offset))).take (k - (twLT g ev.offset).length))
        (ensureLabels g ev.offset (runTo g ev.offset))).cur).map Clause.num =
        some (caseCount (runTo g ev.offset)) := by
      rw [processList_cur_num, hA1cur]
      rfl
    cases hXcur : (processList g
        (((g.blockEvents.drop (twLT g ev.offset).length).takeWhile
          (fun e => decide (e.offset ≤ ev.offset))).take (k - (twLT g ev.offset).length))
        (ensureLabels g ev.offset (runTo g ev.offset))).cur with
    | none =>
      rw [hXcur] at hXnum
      exact Option.noConfusion hXnum
    | some cX =>
      rw [hXcur] at hXnum
      have hnum : cX.num = caseCount (runTo g ev.offset) := by
        simpa using hXnum
      have hpe : ∀ (X : AsmState), processEvent g ev X =
          writeStatement (Stmt.trysPush b.startLabel (posSlot b.catchLabel)
            (posSlot b.finallyLabel) b.endLabel) { X with blockIndex := X.blockIndex + 1 } := by
        intro X
        unfold processEvent
        rw [hblock]
        dsimp only
        rw [if_pos ⟨hopen, hkind⟩]
      rw [show ∀ (X : AsmState), processList g [ev] X = processEvent g ev X from fun X => rfl,
          hpe]
      rw [← hnum]
      exact hasClauseWith_writeStatement_self _ _ cX hXcur
  · rw [writeOperation_labelNumbers]
    exact ensureLabels_labelNumbers_set g ev.offset (runTo g ev.offset) b.startLabel.toNat hmem

theorem get?_some_lt {α : Type} {l : List α} {n : Nat} {x : α} (h : l.get? n = some x) :
    n < l.length := by
  by_contra hc
  rw [List.get?_eq_getElem?, List.getElem?_eq_none (Nat.le_of_not_lt hc)] at h
  exact Option.noConfusion h

theorem tpCount_runTo_zero_before (g : GenState) (s : Int) (k : Nat) (ev : BlockEvent)
    (hk : g.blockEvents.get? k = some ev)
    (hbefore : ∀ m, m ≤ k → ∀ e, g.blockEvents.get? m = some e → e.offset ≤ ev.offset)
    (huniq : ∀ m e, g.blockEvents.get? m = some e → m ≠ k → ¬ evMatches g s e)
    (hoff : ev.offset < g.operations.length) :
    ∀ i, i ≤ ev.offset → tpCount s (runTo g i) = 0 := by
  intro i
  induction i with
  | zero => intro _; rfl
  | succ i ih =>
    intro hle
    rw [tpCount_stepAt_nonmatch g s k ev hk hbefore huniq i (by omega) (by omega)]
    exact ih (by omega)

theorem c1_run_after (g : GenState) (k : Nat) (ev : BlockEvent) (b : BlockScope)
    (hk : g.blockEvents.get? k = some ev)
    (hopen : ev.action = BlockAction.Open)
    (hblock : g.blockObjs.get? ev.blockId = some b)
    (hkind : b.kind = BlockKind.Exception)
    (hoff : ev.offset < g.operations.length)
    (hbefore : ∀ m, m ≤ k → ∀ e, g.blockEvents.get? m = some e → e.offset ≤ ev.offset)
    (hstart : g.labels.get? b.startLabel.toNat = some (some (ev.offset : Int)))
    (huniq : ∀ m e, g.blockEvents.get? m = some e → m ≠ k → ¬ evMatches g b.startLabel e) :
    ∀ i, ev.offset < i → i ≤ g.operations.length →
      tpCount b.startLabel (runTo g i) = 1 ∧
      hasClauseWith (runTo g i) (caseCount (runTo g ev.offset))
        (Stmt.trysPush b.startLabel (posSlot b.catchLabel) (posSlot b.finallyLabel)
          b.endLabel) ∧
      (runTo g i).labelNumbers.get? b.startLabel.toNat =
        some (some (caseCount (runTo g ev.offset))) := by
  intro i
  induction i with
  | zero => intro h _; exact absurd h (Nat.not_lt_zero _)
  | succ i ih =>
    intro hlt hle
    rcases Nat.lt_or_ge ev.offset i with hgt | hge
    · obtain ⟨h1, h2, h3⟩ := ih hgt (by omega)
      refine ⟨?_, ?_, ?_⟩
      · rw [tpCount_stepAt_nonmatch g _ k ev hk hbefore huniq i (by omega) (by omega), h1]
      · rw [runTo_succ]
        exact hasClauseWith_stepAt g _ i _ _ h2
      · rw [runTo_succ]
        exact stepAt_labelNumbers_preserve g _ i _ _
          (not_mem_boundLabels g i ev.offset _ (by omega) hstart) h3
    · have hio : i = ev.offset := by omega
      subst hio
      obtain ⟨h1, h2, h3⟩ := c1_step_o g k ev b hk hopen hblock hkind hoff hbefore hstart huniq
      refine ⟨?_, h2, h3⟩
      rw [h1, tpCount_runTo_zero_before g _ k ev hk hbefore huniq hoff ev.offset le_rfl]

theorem tpCount_buildFull (g : GenState) (s : Int) :
    tpCount s (buildFull g) = tpCount s (runTo g g.operations.length) := by
  simp only [buildFull]
  split
  · rw [tpCount_ensureLabels]
  · rw [tpCount_writeFinalReturn, tpCount_ensureLabels]

theorem labelNumbers_buildFull_preserve (g : GenState) (l : Nat) (w : Option Nat)
    (hnot : l ∉ boundLabels g g.operations.length)
    (hw : (runTo g g.operations.length).labelNumbers.get? l = some w) :
    (buildFull g).labelNumbers.get? l = some w := by
  simp only [buildFull]
  split
  · exact ensureLabels_labelNumbers_preserve g _ _ l w hnot hw
  · rw [writeFinalReturn_labelNumbers]
    exact ensureLabels_labelNumbers_preserve g _ _ l w hnot hw

/-- A list of naturals summing to 1 with an element ≥ 1 at position `N` has
exactly that element equal to 1 and zeros everywhere else. -/
theorem sum_one_distribution (l : List Nat) (N m : Nat)
    (hsum : l.sum = 1) (hN : l.get? N = some m) (hm : 1 ≤ m) :
    m = 1 ∧ ∀ M m', M ≠ N → l.get? M = some m' → m' = 0 := by
  have hNlt : N < l.length := get?_some_lt hN
  have hlN : l[N] = m := by
    rw [List.get?_eq_getElem?, List.getElem?_eq_getElem hNlt] at hN
    exact Option.some.inj hN
  have hdecomp : l = l.take N ++ l[N] :: l.drop (N + 1) := by
    conv_lhs => rw [← List.take_append_drop N l, List.drop_eq_getElem_cons hNlt]
  have hsum2 : (l.take N).sum + (m + (l.drop (N + 1)).sum) = 1 := by
    rw [← hlN]
    conv_lhs => rw [show (l.take N).sum + (l[N] + (l.drop (N + 1)).sum) =
      (l.take N ++ l[N] :: l.drop (N + 1)).sum by rw [List.sum_append, List.sum_cons]]
    rw [← hdecomp]
    exact hsum
  have htake0 : (l.take N).sum = 0 := by omega
  have hdrop0 : (l.drop (N + 1)).sum = 0 := by omega
  refine ⟨by omega, ?_⟩
  intro M m' hMN hM
  rcases Nat.lt_or_ge M N with h | h
  · have hmem : m' ∈ l.take N := by
      refine List.mem_iff_get?.mpr ⟨M, ?_⟩
      rw [List.get?_eq_getElem?, List.getElem?_take, if_pos h, ← List.get?_eq_getElem?]
      exact hM
    exact (List.sum_eq_zero_iff.mp htake0) m' hmem
  · have hMgt : N < M := by omega
    have hmem : m' ∈ l.drop (N + 1) := by
      refine List.mem_iff_get?.mpr ⟨M - (N + 1), ?_⟩
      rw [List.get?_eq_getElem?, List.getElem?_drop,
          show N + 1 + (M - (N + 1)) = M by omega, ← List.get?_eq_getElem?]
      exact hM
    exact (List.sum_eq_zero_iff.mp hdrop0) m' hmem

theorem posSlot_eq_of_pos (o : Option Int) (h : 0 < o.getD 1) : posSlot o = o := by
  cases o with
  | none => rfl
  | some x =>
    have hx : 0 < x := by simpa using h
    show (if 0 < x then some x else none) = some x
    rw [if_pos hx]

/-- Executable form of `evMatches`, used to decide it. -/
def evMatchesB (g : GenState) (s : Int) (e : BlockEvent) : Bool :=
  (e.action == BlockAction.Open) &&
    (match g.blockObjs.get? e.blockId with
     | some b => (b.kind == BlockKind.Exception) && (b.startLabel == s)
     | none => false)

theorem evMatches_iff (g : GenState) (s : Int) (e : BlockEvent) :
    evMatches g s e ↔ evMatchesB g s e = true := by
  unfold evMatches evMatchesB
  cases h : g.blockObjs.get? e.blockId with
  | none =>
    simp [h]
  | some b0 =>
    simp [h]

instance (g : GenState) (s : Int) (e : BlockEvent) : Decidable (evMatches g s e) :=
  decidable_of_iff _ (evMatches_iff g s e).symm

theorem emit_blockObjs (g : GenState) (c : OpCode) (a : List Val) :
    (emit g c a).blockObjs = g.blockObjs := by
  simp only [emit]
  split <;> rfl

theorem markLabel_blockObjs (l : Int) (g : GenState) :
    (markLabel l g).blockObjs = g.blockObjs := by
  simp only [markLabel]
  split <;> rfl

theorem beginExceptionBlock_blockObjs (g : GenState) :
    (beginExceptionBlock g).2.blockObjs =
      g.blockObjs ++ [{ kind := BlockKind.Exception,
                        state := ExceptionBlockState.Try,
                        startLabel := (g.nextLabelId : Int),
                        endLabel := ((g.nextLabelId + 1 : Nat) : Int) }] := by
  simp only [beginExceptionBlock, markLabel]
  split <;> rfl

/-- `beginExceptionBlock` pushes a fresh Exception block whose catch and
finally label slots are unset. -/
theorem beginExceptionBlock_fresh_block (g : GenState) :
    ∃ b, (beginExceptionBlock g).2.blockObjs.get? g.blockObjs.length = some b ∧
      b.catchLabel = none ∧ b.finallyLabel = none ∧ b.kind = BlockKind.Exception := by
  refine ⟨{ kind := BlockKind.Exception,
            state := ExceptionBlockState.Try,
            startLabel := (g.nextLabelId : Int),
            endLabel := ((g.nextLabelId + 1 : Nat) : Int) }, ?_, rfl, rfl, rfl⟩
  rw [beginExceptionBlock_blockObjs, List.get?_eq_getElem?]
  exact List.getElem?_concat_length _ _

theorem beginCatchBlock_blockObjs_eq (catchVar : Nat) (g : GenState) (id0 : Nat)
    (rest : List Nat) (b : BlockScope)
    (hst : g.blockStack = id0 :: rest)
    (hb : g.blockObjs.get? id0 = some b)
    (hcond : b.kind = BlockKind.Exception ∧ b.state.val < ExceptionBlockState.Catch.val) :
    (beginCatchBlock catchVar g).blockObjs =
      g.blockObjs.set id0
        { b with state := ExceptionBlockState.Catch,
                 catchVariable := some catchVar,
                 catchLabel := some (g.nextLabelId : Int) } := by
  simp only [beginCatchBlock, hst, hb]
  rw [if_pos hcond]
  simp only [defineLabel, markLabel]
  rw [if_pos (Int.natCast_nonneg _)]
  rfl

/-- `beginCatchBlock` on a live exception block in state Try sets its
catch-label slot to the freshly defined label. -/
theorem beginCatchBlock_sets_catchLabel (catchVar : Nat) (g : GenState) (id0 : Nat)
    (rest : List Nat) (b : BlockScope)
    (hst : g.blockStack = id0 :: rest)
    (hb : g.blockObjs.get? id0 = some b)
    (hcond : b.kind = BlockKind.Exception ∧ b.state.val < ExceptionBlockState.Catch.val) :
    ∃ b', (beginCatchBlock catchVar g).blockObjs.get? id0 = some b' ∧
      b'.catchLabel = some (g.nextLabelId : Int) := by
  refine ⟨{ b with state := ExceptionBlockState.Catch,
                   catchVariable := some catchVar,
                   catchLabel := some (g.nextLabelId : Int) }, ?_, rfl⟩
  rw [beginCatchBlock_blockObjs_eq catchVar g id0 rest b hst hb hcond,
      List.get?_eq_getElem?, List.getElem?_set_self (get?_some_lt hb)]

theorem beginFinallyBlock_blockObjs_eq (g : GenState) (id0 : Nat)
    (rest : List Nat) (b : BlockScope)
    (hst : g.blockStack = id0 :: rest)
    (hb : g.blockObjs.get? id0 = some b)
    (hcond : b.kind = BlockKind.Exception ∧ b.state.val < ExceptionBlockState.Finally.val) :
    (beginFinallyBlock g).blockObjs =
      g.blockObjs.set id0
        { b with state := ExceptionBlockState.Finally,
                 finallyLabel := some (g.nextLabelId : Int) } := by
  simp only [beginFinallyBlock, hst, hb]
  rw [if_pos hcond]
  simp only [defineLabel, markLabel]
  rw [if_pos (Int.natCast_nonneg _)]
  rfl

/-- `beginFinallyBlock` on a live exception block whose state precedes
Finally sets its finally-label slot to the freshly defined label. -/
theorem beginFinallyBlock_sets_finallyLabel (g : GenState) (id0 : Nat)
    (rest : List Nat) (b : BlockScope)
    (hst : g.blockStack = id0 :: rest)
    (hb : g.blockObjs.get? id0 = some b)
    (hcond : b.kind = BlockKind.Exception ∧ b.state.val < ExceptionBlockState.Finally.val) :
    ∃ b', (beginFinallyBlock g).blockObjs.get? id0 = some b' ∧
      b'.finallyLabel = some (g.nextLabelId : Int) := by
  refine ⟨{ b with state := ExceptionBlockState.Finally,
                   finallyLabel := some (g.nextLabelId : Int) }, ?_, rfl⟩
  rw [beginFinallyBlock_blockObjs_eq g id0 rest b hst hb hcond,
      List.get?_eq_getElem?, List.getElem?_set_self (get?_some_lt hb)]

/-! ### C1 — the protected-region ABI -/

/-- C1.  Every exception block that entered the Try state — witnessed by its
Open event (index `k`, record `ev`, block object `b`) in the block event
log — produces exactly one `__state.trys.push([start, catch, finally, end])`
statement in the assembled output, placed in the case whose index `N` is
`labelNumbers[startLabel]`, and its catch/finally slots hold exactly the
block's `catchLabel`/`finallyLabel` fields — which are `some` precisely when
`beginCatchBlock`/`beginFinallyBlock` were run on the block (they start
`none` at `beginExceptionBlock` and only those calls set them, see
`beginExceptionBlock_fresh_block`, `beginCatchBlock_sets_catchLabel` and
`beginFinallyBlock_sets_finallyLabel`).  Hypotheses: the events up to `k`
were recorded no later than `ev` (the log offsets are non-decreasing), some
operation follows the Open (the block was closed: `endExceptionBlock` always
emits), the start label is bound at the Open offset, no other event opens an
exception block with the same start label, and the stored catch/finally
labels are positive — all invariants of every recording. -/
theorem c1_protected_region_abi (g : GenState) (k : Nat) (ev : BlockEvent) (b : BlockScope)
    (hk : g.blockEvents.get? k = some ev)
    (hopen : ev.action = BlockAction.Open)
    (hblock : g.blockObjs.get? ev.blockId = some b)
    (hkind : b.kind = BlockKind.Exception)
    (hoff : ev.offset < g.operations.length)
    (hbefore : ∀ m, (hm : m < k + 1) → (hm2 : m < g.blockEvents.length) →
      (g.blockEvents.get ⟨m, hm2⟩).offset ≤ ev.offset)
    (hstart : g.labels.get? b.startLabel.toNat = some (some (ev.offset : Int)))
    (huniq : ∀ m, (hm : m < g.blockEvents.length) → m ≠ k →
      ¬ evMatches g b.startLabel (g.blockEvents.get ⟨m, hm⟩))
    (hcpos : 0 < b.catchLabel.getD 1)
    (hfpos : 0 < b.finallyLabel.getD 1) :
    ∃ N cl,
      (buildFull g).labelNumbers.get? b.startLabel.toNat = some (some N) ∧
      (buildFunctionBody g).get? N = some cl ∧
      Stmt.trysPush b.startLabel b.catchLabel b.finallyLabel b.endLabel ∈ cl.stmts ∧
      tpClause b.startLabel cl = 1 ∧
      (∀ M cl', (buildFunctionBody g).get? M = some cl' → M ≠ N →
        tpClause b.startLabel cl' = 0) := by
  have hbefore2 : ∀ m, m ≤ k → ∀ e, g.blockEvents.get? m = some e →
      e.offset ≤ ev.offset := by
    intro m hm e he
    have hlen : m < g.blockEvents.length := get?_some_lt he
    have h2 := hbefore m (by omega) hlen
    obtain ⟨h', hg⟩ := List.get?_eq_some.mp he
    rw [← hg]
    exact h2
  have huniq2 : ∀ m e, g.blockEvents.get? m = some e → m ≠ k →
      ¬ evMatches g b.startLabel e := by
    intro m e he hne
    have hlen : m < g.blockEvents.length := get?_some_lt he
    obtain ⟨h', hg⟩ := List.get?_eq_some.mp he
    rw [← hg]
    exact huniq m hlen hne
  obtain ⟨h1, h2, h3⟩ := c1_run_after g k ev b hk hopen hblock hkind hoff hbefore2 hstart huniq2
    g.operations.length hoff le_rfl
  have htotal : tpCount b.startLabel (buildFull g) = 1 := by
    rw [tpCount_buildFull]
    exact h1
  have hhas := hasClauseWith_buildFull g g.operations.length le_rfl _ _ h2
  have hLN : (buildFull g).labelNumbers.get? b.startLabel.toNat =
      some (some (caseCount (runTo g ev.offset))) :=
    labelNumbers_buildFull_preserve g _ _
      (not_mem_boundLabels g g.operations.length ev.offset _ (by omega) hstart) h3
  have htp_eq : Stmt.trysPush b.startLabel (posSlot b.catchLabel) (posSlot b.finallyLabel)
      b.endLabel = Stmt.trysPush b.startLabel b.catchLabel b.finallyLabel b.endLabel := by
    rw [posSlot_eq_of_pos _ hcpos, posSlot_eq_of_pos _ hfpos]
  rw [htp_eq] at hhas
  obtain ⟨cl, hmem, hnum, hin⟩ := hhas
  obtain ⟨M, hM⟩ := List.mem_iff_get?.mp hmem
  have hMN : cl.num = M := buildFunctionBody_num g M cl hM
  have hMeqN : M = caseCount (runTo g ev.offset) := by
    rw [← hMN, hnum]
  have hgetN : (buildFunctionBody g).get? (caseCount (runTo g ev.offset)) = some cl := by
    rw [← hMeqN]
    exact hM
  have hclcount : 1 ≤ tpClause b.startLabel cl := by
    unfold tpClause
    refine Nat.succ_le_of_lt (List.countP_pos_iff.mpr ⟨_, hin, ?_⟩)
    unfold tpStmt
    simp
  have hsumlist : ((buildFunctionBody g).map (tpClause b.startLabel)).sum = 1 := htotal
  have hgetmap : ((buildFunctionBody g).map (tpClause b.startLabel)).get?
      (caseCount (runTo g ev.offset)) = some (tpClause b.startLabel cl) := by
    rw [List.get?_eq_getElem?, List.getElem?_map]
    rw [List.get?_eq_getElem?] at hgetN
    rw [hgetN]
    rfl
  obtain ⟨hone, hzero⟩ := sum_one_distribution _ _ _ hsumlist hgetmap hclcount
  refine ⟨caseCount (runTo g ev.offset), cl, hLN, hgetN, hin, hone, ?_⟩
  intro M' cl' hM' hne
  have hgm : ((buildFunctionBody g).map (tpClause b.startLabel)).get? M' =
      some (tpClause b.startLabel cl') := by
    rw [List.get?_eq_getElem?, List.getElem?_map]
    rw [List.get?_eq_getElem?] at hM'
    rw [hM']
    rfl
  exact hzero M' _ hne hgm

/-- C1 witness input: scenario S4 of the spec, `try { a } finally { b }`. -/
def c1Gen : GenState :=
  exec [.beginExceptionBlockE, .emitE .Statement [.node 10], .beginFinallyBlockE,
        .emitE .Statement [.node 11], .endExceptionBlockE]

/-- C1 witness: `c1_protected_region_abi` applied to the try/finally
recording `c1Gen` and its single exception block (Open event 0, block 0,
start label 2 bound at operation index 0). -/
theorem c1_protected_region_abi_witness :
    ∃ N cl,
      (buildFull c1Gen).labelNumbers.get? 2 = some (some N) ∧
      (buildFunctionBody c1Gen).get? N = some cl ∧
      Stmt.trysPush 2 none (some 4) 3 ∈ cl.stmts ∧
      tpClause 2 cl = 1 ∧
      (∀ M cl', (buildFunctionBody c1Gen).get? M = some cl' → M ≠ N →
        tpClause 2 cl' = 0) :=
  c1_protected_region_abi c1Gen 0 ⟨BlockAction.Open, 0, 0⟩
    { kind := BlockKind.Exception, state := ExceptionBlockState.Done, startLabel := 2,
      finallyLabel := some 4, endLabel := 3 }
    (by decide) (by decide) (by decide) (by decide) (by decide) (by decide) (by decide)
    (by decide) (by decide) (by decide)

/-! ### C10 — the entry case

`createCodeGenerator` runs `markLabel(defineLabel())` at construction time,
binding label 1 to operation index 0.  No later API call can rebind index 1
of the label array: the generator's own labels are allocated from
`nextLabelId ≥ 2`, caller-marked labels come from `defineLabel`, and the
end/break labels stored in block objects are never 1.  `GoodGen` packages
this as an invariant of every reachable recorder state. -/

theorem emit_labels (g : GenState) (c : OpCode) (a : List Val) :
    (emit g c a).labels = g.labels := by
  simp only [emit]
  split <;> rfl

theorem emit_nextLabelId (g : GenState) (c : OpCode) (a : List Val) :
    (emit g c a).nextLabelId = g.nextLabelId := by
  simp only [emit]
  split <;> rfl

theorem emit_callerLabels (g : GenState) (c : OpCode) (a : List Val) :
    (emit g c a).callerLabels = g.callerLabels := by
  simp only [emit]
  split <;> rfl

theorem markLabel_nextLabelId (l : Int) (g : GenState) :
    (markLabel l g).nextLabelId = g.nextLabelId := by
  simp only [markLabel]
  split <;> rfl

theorem markLabel_callerLabels (l : Int) (g : GenState) :
    (markLabel l g).callerLabels = g.callerLabels := by
  simp only [markLabel]
  split <;> rfl

theorem markLabel_labels_get_one (l : Int) (g : GenState) (hne : l ≠ 1)
    (h : g.labels.get? 1 = some (some 0)) :
    (markLabel l g).labels.get? 1 = some (some 0) := by
  unfold markLabel
  split
  case isTrue hpos =>
    exact sparseSet_get_ne g.labels l.toNat _ 1 (by omega) _ h
  case isFalse _ => exact h

theorem forall_mem_set {α : Type} (l : List α) (i : Nat) (x : α) (P : α → Prop)
    (hl : ∀ y ∈ l, P y) (hx : P x) : ∀ y ∈ l.set i x, P y := by
  intro y hy
  rcases List.mem_or_eq_of_mem_set hy with h | h
  · exact hl y h
  · rw [h]
    exact hx

/-- The label-discipline invariant of every reachable recorder state: the
entry label 1 is bound to operation index 0, fresh label ids start at 2,
every label id handed to the visitor is at least 2, and no live or dead
block stores 1 in its end or break slot. -/
def GoodGen (g : GenState) : Prop :=
  g.labels.get? 1 = some (some 0) ∧
  2 ≤ g.nextLabelId ∧
  (∀ l ∈ g.callerLabels, (2:Int) ≤ l) ∧
  (∀ b ∈ g.blockObjs, b.endLabel ≠ 1 ∧ b.breakLabel ≠ 1)

theorem initGen_good : GoodGen initGen := by
  refine ⟨rfl, by decide, ?_, ?_⟩ <;> intro x hx <;> exact absurd hx (List.not_mem_nil x)

theorem emit_good (g : GenState) (c : OpCode) (a : List Val) (hg : GoodGen g) :
    GoodGen (emit g c a) := by
  unfold GoodGen at *
  rw [emit_labels, emit_nextLabelId, emit_callerLabels, emit_blockObjs]
  exact hg

theorem markLabel_good (l : Int) (g : GenState) (hne : l ≠ 1) (hg : GoodGen g) :
    GoodGen (markLabel l g) := by
  obtain ⟨h1, h2, h3, h4⟩ := hg
  refine ⟨markLabel_labels_get_one l g hne h1, ?_, ?_, ?_⟩
  · rw [markLabel_nextLabelId]
    exact h2
  · rw [markLabel_callerLabels]
    exact h3
  · rw [markLabel_blockObjs]
    exact h4

theorem defineLabel_good (g : GenState) (hg : GoodGen g) :
    GoodGen (defineLabel g).2 := by
  obtain ⟨h1, h2, h3, h4⟩ := hg
  refine ⟨?_, by simp only [defineLabel]; omega, h3, h4⟩
  exact sparseSet_get_ne g.labels _ _ 1 (by omega) _ h1

theorem beginBlock_good (b : BlockScope) (g : GenState)
    (hend : b.endLabel ≠ 1) (hbr : b.breakLabel ≠ 1) (hg : GoodGen g) :
    GoodGen (beginBlock b g) := by
  obtain ⟨h1, h2, h3, h4⟩ := hg
  refine ⟨h1, h2, h3, ?_⟩
  intro y hy
  rcases List.mem_append.mp hy with h | h
  · exact h4 y h
  · rw [List.mem_singleton.mp h]
    exact ⟨hend, hbr⟩

theorem beginExceptionBlock_good (g : GenState) (hg : GoodGen g) :
    GoodGen (beginExceptionBlock g).2 := by
  have h2 := hg.2.1
  have hg1 := defineLabel_good g hg
  have hg2 := defineLabel_good _ hg1
  have hg3 := markLabel_good ((g.nextLabelId : Int)) _ (by omega) hg2
  have hg4 := beginBlock_good
    { kind := BlockKind.Exception, state := ExceptionBlockState.Try,
      startLabel := (g.nextLabelId : Int),
      endLabel := (((g.nextLabelId + 1 : Nat)) : Int) }
    _ (by show (((g.nextLabelId + 1 : Nat)) : Int) ≠ 1; omega)
    (by show (0 : Int) ≠ 1; decide) hg3
  exact hg4

theorem beginCatchBlock_good (v : Nat) (g : GenState) (hg : GoodGen g) :
    GoodGen (beginCatchBlock v g) := by
  have h2 := hg.2.1
  cases hst : g.blockStack with
  | nil => simp only [beginCatchBlock, hst]; exact hg
  | cons id0 rest =>
    cases hbo : g.blockObjs.get? id0 with
    | none => simp only [beginCatchBlock, hst, hbo]; exact hg
    | some b =>
      simp only [beginCatchBlock, hst, hbo]
      split
      · have e1 := emit_good g OpCode.Break [Val.lbl b.endLabel] hg
        have e2 := defineLabel_good _ e1
        have e3 := markLabel_good
          (((emit g OpCode.Break [Val.lbl b.endLabel]).nextLabelId : Int)) _
          (by rw [emit_nextLabelId]; omega) e2
        obtain ⟨k1, k2, k3, k4⟩ := e3
        refine emit_good _ OpCode.Statement [Val.errorAssign v] ⟨k1, k2, k3, ?_⟩
        refine forall_mem_set _ _ _ _ k4 ?_
        exact hg.2.2.2 b (List.get?_mem hbo)
      · exact hg

theorem beginFinallyBlock_good (g : GenState) (hg : GoodGen g) :
    GoodGen (beginFinallyBlock g) := by
  have h2 := hg.2.1
  cases hst : g.blockStack with
  | nil => simp only [beginFinallyBlock, hst]; exact hg
  | cons id0 rest =>
    cases hbo : g.blockObjs.get? id0 with
    | none => simp only [beginFinallyBlock, hst, hbo]; exact hg
    | some b =>
      simp only [beginFinallyBlock, hst, hbo]
      split
      · have e1 := emit_good g OpCode.Break [Val.lbl b.endLabel] hg
        have e2 := defineLabel_good _ e1
        have e3 := markLabel_good
          (((emit g OpCode.Break [Val.lbl b.endLabel]).nextLabelId : Int)) _
          (by rw [emit_nextLabelId]; omega) e2
        obtain ⟨k1, k2, k3, k4⟩ := e3
        refine ⟨k1, k2, k3, ?_⟩
        refine forall_mem_set _ _ _ _ k4 ?_
        exact hg.2.2.2 b (List.get?_mem hbo)
      · exact hg

theorem endExceptionBlock_good (g : GenState) (hg : GoodGen g) :
    GoodGen (endExceptionBlock g) := by
  cases hst : g.blockStack with
  | nil => simp only [endExceptionBlock, hst]; exact hg
  | cons id0 rest =>
    cases hbo : g.blockObjs.get? id0 with
    | none => simp only [endExceptionBlock, hst, hbo]; exact hg
    | some b =>
      simp only [endExceptionBlock, hst, hbo]
      split
      · have hbprops := hg.2.2.2 b (List.get?_mem hbo)
        have e1 : GoodGen (if b.state.val < ExceptionBlockState.Finally.val then
            emit { g with blockStack := rest,
                          blockEvents :=
                            g.blockEvents ++ [⟨BlockAction.Close, g.operations.length, id0⟩] }
              OpCode.Break [Val.lbl b.endLabel]
          else
            emit { g with blockStack := rest,
                          blockEvents :=
                            g.blockEvents ++ [⟨BlockAction.Close, g.operations.length, id0⟩] }
              OpCode.Endfinally []) := by
          split
          · exact emit_good _ _ _ ⟨hg.1, hg.2.1, hg.2.2.1, hg.2.2.2⟩
          · exact emit_good _ _ _ ⟨hg.1, hg.2.1, hg.2.2.1, hg.2.2.2⟩
        have e2 := markLabel_good b.endLabel _ hbprops.1 e1
        obtain ⟨k1, k2, k3, k4⟩ := e2
        refine ⟨k1, k2, k3, ?_⟩
        refine forall_mem_set _ _ _ _ k4 ?_
        exact hbprops
      · exact hg

theorem endPlainBlock_good (g : GenState) (id0 : Nat) (rest : List Nat) (hg : GoodGen g) :
    GoodGen { g with blockStack := rest,
                     blockEvents :=
                       g.blockEvents ++ [⟨BlockAction.Close, g.operations.length, id0⟩] } :=
  ⟨hg.1, hg.2.1, hg.2.2.1, hg.2.2.2⟩

theorem endContinueBlock_good (g : GenState) (hg : GoodGen g) :
    GoodGen (endContinueBlock g) := by
  cases hst : g.blockStack with
  | nil => simp only [endContinueBlock, hst]; exact hg
  | cons id0 rest =>
    cases hbo : g.blockObjs.get? id0 with
    | none => simp only [endContinueBlock, hst, hbo]; exact hg
    | some b =>
      simp only [endContinueBlock, hst, hbo]
      split
      · have hbprops := hg.2.2.2 b (List.get?_mem hbo)
        split
        · exact markLabel_good b.breakLabel _ hbprops.2 (endPlainBlock_good g id0 rest hg)
        · exact endPlainBlock_good g id0 rest hg
      · exact hg

theorem endBreakBlock_good (g : GenState) (hg : GoodGen g) :
    GoodGen (endBreakBlock g) := by
  cases hst : g.blockStack with
  | nil => simp only [endBreakBlock, hst]; exact hg
  | cons id0 rest =>
    cases hbo : g.blockObjs.get? id0 with
    | none => simp only [endBreakBlock, hst, hbo]; exact hg
    | some b =>
      simp only [endBreakBlock, hst, hbo]
      split
      · have hbprops := hg.2.2.2 b (List.get?_mem hbo)
        split
        · exact markLabel_good b.breakLabel _ hbprops.2 (endPlainBlock_good g id0 rest hg)
        · exact endPlainBlock_good g id0 rest hg
      · exact hg

theorem endScriptContinueBlock_good (g : GenState) (hg : GoodGen g) :
    GoodGen (endScriptContinueBlock g) := by
  cases hst : g.blockStack with
  | nil => simp only [endScriptContinueBlock, hst]; exact hg
  | cons id0 rest =>
    cases hbo : g.blockObjs.get? id0 with
    | none => simp only [endScriptContinueBlock, hst, hbo]; exact hg
    | some b =>
      simp only [endScriptContinueBlock, hst, hbo]
      split
      · exact endPlainBlock_good g id0 rest hg
      · exact hg

theorem endScriptBreakBlock_good (g : GenState) (hg : GoodGen g) :
    GoodGen (endScriptBreakBlock g) := by
  cases hst : g.blockStack with
  | nil => simp only [endScriptBreakBlock, hst]; exact hg
  | cons id0 rest =>
    cases hbo : g.blockObjs.get? id0 with
    | none => simp only [endScriptBreakBlock, hst, hbo]; exact hg
    | some b =>
      simp only [endScriptBreakBlock, hst, hbo]
      split
      · exact endPlainBlock_good g id0 rest hg
      · exact hg

theorem execEvent_good (g : GenState) (ev : TraceEvent) (hg : GoodGen g) :
    GoodGen (execEvent g ev) := by
  have h2 := hg.2.1
  cases ev with
  | defineLabelE =>
    obtain ⟨k1, k2, k3, k4⟩ := defineLabel_good g hg
    refine ⟨k1, k2, ?_, k4⟩
    intro l hl
    rcases List.mem_append.mp hl with h | h
    · exact hg.2.2.1 l h
    · rw [List.mem_singleton.mp h]
      omega
  | markLabelE l =>
    simp only [execEvent]
    split
    · rename_i hmem
      have hge := hg.2.2.1 l hmem
      exact markLabel_good l g (by omega) hg
    · exact hg
  | beginExceptionBlockE => exact beginExceptionBlock_good g hg
  | beginCatchBlockE v => exact beginCatchBlock_good v g hg
  | beginFinallyBlockE => exact beginFinallyBlock_good g hg
  | endExceptionBlockE => exact endExceptionBlock_good g hg
  | beginScriptContinueBlockE t =>
    refine beginBlock_good _ g ?_ ?_ hg
    · show (0 : Int) ≠ 1
      decide
    · show (-1 : Int) ≠ 1
      decide
  | endScriptContinueBlockE => exact endScriptContinueBlock_good g hg
  | beginScriptBreakBlockE t =>
    refine beginBlock_good _ g ?_ ?_ hg
    · show (0 : Int) ≠ 1
      decide
    · show (-1 : Int) ≠ 1
      decide
  | endScriptBreakBlockE => exact endScriptBreakBlock_good g hg
  | beginContinueBlockE l t =>
    refine beginBlock_good _ _ ?_ ?_ (defineLabel_good g hg)
    · show (0 : Int) ≠ 1
      decide
    · show ((g.nextLabelId : Nat) : Int) ≠ 1
      omega
  | endContinueBlockE => exact endContinueBlock_good g hg
  | beginBreakBlockE t =>
    refine beginBlock_good _ _ ?_ ?_ (defineLabel_good g hg)
    · show (0 : Int) ≠ 1
      decide
    · show ((g.nextLabelId : Nat) : Int) ≠ 1
      omega
  | endBreakBlockE => exact endBreakBlock_good g hg
  | emitE c args => exact emit_good g c args hg

theorem exec_good (tr : List TraceEvent) : GoodGen (exec tr) := by
  suffices h : ∀ g, GoodGen g → GoodGen (tr.foldl execEvent g) from h initGen initGen_good
  induction tr with
  | nil => intro g hgood; exact hgood
  | cons e rest ih =>
    intro g hgood
    exact ih (execEvent g e) (execEvent_good g e hgood)

theorem outClauses_length_pos (a : AsmState) (h : (a.cur).isSome = true) :
    1 ≤ (outClauses a).length := by
  cases hc : a.cur with
  | none => rw [hc] at h; simp at h
  | some c =>
    rw [outClauses_some a c hc]
    simp

theorem ensureLabels_zero_cur_isSome (g : GenState) (a : AsmState)
    (hone : g.labels.get? 1 = some (some 0)) :
    ((ensureLabels g 0 a).cur).isSome = true := by
  have hbound : (1 : Nat) ∈ boundLabels g 0 := mem_boundLabels g 0 1 hone
  rw [ensureLabels_create g 0 a (boundLabels_isEmpty_false g 0 1 hbound)]
  rfl

theorem buildFull_cur_isSome_of_entry (g : GenState)
    (hone : g.labels.get? 1 = some (some 0)) :
    ((buildFull g).cur).isSome = true := by
  rcases Nat.eq_zero_or_pos g.operations.length with h0 | hpos
  · simp only [buildFull, h0]
    have hcur := ensureLabels_zero_cur_isSome g (runTo g 0) hone
    split
    · exact hcur
    · unfold writeFinalReturn
      exact cur_isSome_of_map_num (writeStatement_cur_num _ _) hcur
  · refine buildFull_cur_isSome g 1 hpos ?_
    cases hop : g.operations.get? 0 with
    | none =>
      rw [List.get?_eq_none] at hop
      omega
    | some op =>
      rw [runTo_succ g 0]
      have hcur := ensureLabels_zero_cur_isSome g (runTo g 0) hone
      simp only [stepAt, hop]
      exact cur_isSome_of_map_num (writeOperation_cur_num g 0 op.code op.args _) hcur

theorem buildFunctionBody_head_num (g : GenState)
    (h : 1 ≤ (buildFunctionBody g).length) :
    (buildFunctionBody g).head?.map Clause.num = some 0 := by
  cases hc : (buildFunctionBody g).get? 0 with
  | none =>
    rw [List.get?_eq_none] at hc
    omega
  | some cl =>
    have hnum := buildFunctionBody_num g 0 cl hc
    rw [List.get?_eq_getElem?] at hc
    rw [List.head?_eq_getElem?, hc]
    simp [hnum]

/-- C10.  The factory (`createCodeGenerator`) runs `markLabel(defineLabel())`
at construction time, binding the entry label 1 to operation index 0, and no
later API call can rebind it (`exec_good`).  Consequently, for every
recording — including the empty one — the finalization pass opens case 0 at
the latest when its trailing `ensureLabels()` runs, so the assembled switch
body has at least one clause and its first clause is numbered 0, the value
the runtime's initial `__state.label` dispatch selects. -/
theorem c10_entry_case (tr : List TraceEvent) :
    initGen.labels.get? 1 = some (some 0) ∧
    1 ≤ (buildFunctionBody (exec tr)).length ∧
    (buildFunctionBody (exec tr)).head?.map Clause.num = some 0 := by
  have hg := exec_good tr
  have hcur := buildFull_cur_isSome_of_entry (exec tr) hg.1
  have hlen : 1 ≤ (buildFunctionBody (exec tr)).length := outClauses_length_pos _ hcur
  exact ⟨rfl, hlen, buildFunctionBody_head_num _ hlen⟩

end TSGen
